import Mathlib

/-!
# decaf-emu: coreinit semaphores, thread queues and the block heap

A shallow embedding of

* `src/libdecaf/src/modules/coreinit/coreinit_semaphore.cpp`
* `src/libdecaf/src/modules/coreinit/coreinit_thread.h` (thread queue declarations and
  the layout of `OSContext` and `OSThread`)
* `src/libdecaf/src/modules/coreinit/coreinit_memblockheap.cpp`
* `src/libcpu/mem.h` (address translation)
* `src/libdecaf/src/modules/nn_boss/nn_boss_init.cpp` (the initialisation flag)

Conventions of the embedding.

* A pointer argument that the code tests against `nullptr` is an `Option`; `none` is the
  null pointer and `some s` is a pointer to storage currently holding `s`.
* `int32_t` values are `Int`; arithmetic that can leave the 32-bit range goes through
  `wrapInt32`.  `uint32_t` values are `Nat` reduced modulo `2 ^ 32`.
* `internal::lockScheduler` / `unlockScheduler` bracket every semaphore function, so each
  function is one atomic transition of the semaphore, with one exception: the sleep inside
  `OSWaitSemaphore`, where other threads run.  What they do to the semaphore before the
  caller is next resumed is the *environment* of the call.
* `decaf_check(c)` aborts the emulator when `c` is false; an aborted call is the outcome
  `fatal`, which records the storage as it was when the check failed.
* Host pointers (`void *`, `size_t`) are numbers below `2 ^ 64`, the null pointer being 0;
  guest addresses (`ppcaddr_t`, `be_ptr`) are numbers below `2 ^ 32`.
-/

namespace coreinit

/-! ## Machine integers -/

/-- The value of an `int32_t` after arithmetic whose exact result is `x`. -/
def wrapInt32 (x : Int) : Int :=
  (x + 2147483648) % 4294967296 - 2147483648

/-- The values an `int32_t` can hold. -/
def isInt32 (x : Int) : Prop :=
  -2147483648 ≤ x ∧ x < 2147483648

instance (x : Int) : Decidable (isInt32 x) := by
  unfold isInt32
  infer_instance

/-! ## Threads and thread queues (`coreinit_thread.h`) -/

/-- The fields of `OSThread` that queue ordering reads: `be_val<uint16_t> id` (offset
`0x326`) and `be_val<int32_t> priority` (offset `0x32c`, 0 is the highest priority). -/
structure OSThread where
  id : Nat
  priority : Int
  deriving DecidableEq, Repr

/-- The struct `OSThreadQueue`.  The intrusive list `head … tail`, linked through
`OSThread::link`, is the list `threads` (head first); `parent` is the `be_ptr<void>` owner
reference. -/
structure OSThreadQueue where
  threads : List OSThread
  parent : Option Nat
  deriving DecidableEq, Repr

/-- Modelled from the spec: the body of `internal::threadSortFunc`, of which
`coreinit_thread.h` only has the declaration.  The queue is "ordered by priority
ascending; among equal priorities, FIFO by enqueue order", so a queued thread `lhs` stays
ahead of a newly inserted `rhs` exactly when its priority value is not larger. -/
def threadSortFunc (lhs rhs : OSThread) : Bool :=
  decide (lhs.priority ≤ rhs.priority)

namespace ThreadQueue

/-- Modelled from the spec: the insertion walk of `SortedQueue<…, threadSortFunc>`
(`coreinit_internal_queue.h` is not part of the sources).  "`insert(thread)` places the
thread in priority order, FIFO among equals": walk from the head past every thread that
sorts before the item and link the item in front of the first one that does not. -/
def insertSorted : List OSThread → OSThread → List OSThread
  | [], item => [item]
  | t :: rest, item =>
    if threadSortFunc t item then t :: insertSorted rest item else item :: t :: rest

/-- Modelled from the spec: `ThreadQueue::insert(queue, item)`. -/
def insert (queue : OSThreadQueue) (item : OSThread) : OSThreadQueue :=
  { queue with threads := insertSorted queue.threads item }

/-- Modelled from the spec: `peekFront()` "returns the highest-priority (lowest-numeric)
candidate without removing it", that is `queue->head`. -/
def peekFront (queue : OSThreadQueue) : Option OSThread :=
  queue.threads.head?

/-- Modelled from the spec: removal of the thread at the head of the queue. -/
def popFront (queue : OSThreadQueue) : Option (OSThread × OSThreadQueue) :=
  match queue.threads with
  | [] => none
  | t :: rest => some (t, { queue with threads := rest })

/-- The queue reached from `queue` by inserting the threads of `items`, first to last. -/
def insertAll (queue : OSThreadQueue) (items : List OSThread) : OSThreadQueue :=
  items.foldl insert queue

/-- Remove from the front until the queue is empty; the threads in removal order.  The
fuel bounds the number of removals. -/
def drain : Nat → OSThreadQueue → List OSThread
  | 0, _ => []
  | fuel + 1, queue =>
    match popFront queue with
    | none => []
    | some (t, rest) => t :: drain fuel rest

end ThreadQueue

/-- Modelled from the spec: `OSInitThreadQueueEx(queue, parent)`, declared in
`coreinit_thread.h` and defined outside the sources: "initializes an empty wait queue"
that "carries an opaque owner back-reference". -/
def OSInitThreadQueueEx (_queue : OSThreadQueue) (parent : Option Nat) : OSThreadQueue :=
  { threads := [], parent := parent }

/-! ## Scheduler primitives used by the semaphore

`coreinit_scheduler.h` is not part of the sources; the semaphore code only calls into it. -/

/-- Modelled from the spec: `internal::sleepThreadNoLock(queue)` for the calling thread
`self`: "move the calling/current thread from its core's run queue into `queue` (Waiting
state), preserving priority order". -/
def sleepThreadNoLock (self : OSThread) (queue : OSThreadQueue) : OSThreadQueue :=
  ThreadQueue.insert queue self

/-- Modelled from the spec: `internal::wakeupThreadNoLock(queue)`: "remove one or more
threads from `queue`, reinsert each into its eligible core's run queue (Ready)".  Threads
leave from the front, in queue order; `extra` is how many threads beyond the first the
scheduler wakes.  The result is the woken threads and the remaining queue. -/
def wakeupThreadNoLock (extra : Nat) (queue : OSThreadQueue) :
    List OSThread × OSThreadQueue :=
  (queue.threads.take (extra + 1), { queue with threads := queue.threads.drop (extra + 1) })

/-! ## Semaphores (`coreinit_semaphore.cpp`) -/

/-- The struct `OSSemaphore` as the functions of `coreinit_semaphore.cpp` use it: `tag`,
`name` (a `char *`, `none` for null), the `int32_t` `count` and the wait `queue`. -/
structure OSSemaphore where
  tag : Nat
  name : Option String
  count : Int
  queue : OSThreadQueue
  deriving DecidableEq, Repr

/-- How a call of a semaphore function ends. -/
inductive Outcome where
  /-- The call returned `value`, leaving the semaphore as `sem`, having moved the threads
  `woken` from the wait queue to the run queues. -/
  | returned (value : Int) (sem : OSSemaphore) (woken : List OSThread)
  /-- The caller sleeps on the wait queue of `sem` and is not resumed again. -/
  | blocked (sem : OSSemaphore)
  /-- A `decaf_check` failed; `sem` is the storage at that moment. -/
  | fatal (sem : Option OSSemaphore)
  deriving DecidableEq, Repr

/-- `OSInitSemaphoreEx(semaphore, count, name)`.  `self` is the address `semaphore`, `prior`
the content of the storage before the call, `Tag` the constant `OSSemaphore::Tag`. -/
def OSInitSemaphoreEx (Tag : Nat) (self : Nat) (prior : OSSemaphore) (count : Int)
    (name : Option String) : OSSemaphore :=
  { tag := Tag
    name := name
    count := count
    queue := OSInitThreadQueueEx prior.queue (some self) }

/-- `OSInitSemaphore(semaphore, count)`. -/
def OSInitSemaphore (Tag : Nat) (self : Nat) (prior : OSSemaphore) (count : Int) :
    OSSemaphore :=
  OSInitSemaphoreEx Tag self prior count none

/-- The semaphore once the caller `self` has gone to sleep on its queue. -/
def asleepOn (self : OSThread) (sem : OSSemaphore) : OSSemaphore :=
  { sem with queue := sleepThreadNoLock self sem.queue }

/-- The `while (semaphore->count <= 0)` loop of `OSWaitSemaphore` and the decrement after
it.  Each pass puts the caller to sleep and switches away (`rescheduleSelfNoLock`); the
head of `env` is what the other threads do to the semaphore until the caller runs again.
When `env` is used up the caller is never resumed.  The decrement needs no wrapping: it is
only reached with `0 < count`. -/
def waitLoop (self : OSThread) : List (OSSemaphore → OSSemaphore) → OSSemaphore → Outcome
  | [], sem =>
    if sem.count ≤ 0 then .blocked (asleepOn self sem)
    else .returned sem.count { sem with count := sem.count - 1 } []
  | wake :: rest, sem =>
    if sem.count ≤ 0 then waitLoop self rest (wake (asleepOn self sem))
    else .returned sem.count { sem with count := sem.count - 1 } []

/-- `OSWaitSemaphore(semaphore)` called by thread `self`. -/
def OSWaitSemaphore (Tag : Nat) (self : OSThread) (env : List (OSSemaphore → OSSemaphore))
    (semaphore : Option OSSemaphore) : Outcome :=
  match semaphore with
  | none => .fatal none
  | some sem =>
    if sem.tag = Tag then waitLoop self env sem else .fatal (some sem)

/-- `OSTryWaitSemaphore(semaphore)`. -/
def OSTryWaitSemaphore (Tag : Nat) (semaphore : Option OSSemaphore) : Outcome :=
  match semaphore with
  | none => .fatal none
  | some sem =>
    if sem.tag = Tag then
      let previous := sem.count
      if sem.count > 0 then .returned previous { sem with count := sem.count - 1 } []
      else .returned previous sem []
    else .fatal (some sem)

/-- `OSSignalSemaphore(semaphore)`; `extra` is the scheduler's choice inside
`wakeupThreadNoLock`.  `rescheduleAllCoreNoLock` does not touch the semaphore. -/
def OSSignalSemaphore (Tag : Nat) (extra : Nat) (semaphore : Option OSSemaphore) : Outcome :=
  match semaphore with
  | none => .fatal none
  | some sem =>
    if sem.tag = Tag then
      let previous := sem.count
      let woke := wakeupThreadNoLock extra sem.queue
      .returned previous { sem with count := wrapInt32 (sem.count + 1), queue := woke.2 } woke.1
    else .fatal (some sem)

/-- `OSGetSemaphoreCount(semaphore)`. -/
def OSGetSemaphoreCount (Tag : Nat) (semaphore : Option OSSemaphore) : Outcome :=
  match semaphore with
  | none => .fatal none
  | some sem =>
    if sem.tag = Tag then .returned sem.count sem [] else .fatal (some sem)

/-- The semaphore as the caller of `OSWaitSemaphore` finds it at its `k`-th evaluation of
the loop condition (`k = 0` is on entry), were it to sleep at every earlier one. -/
def observedAt (self : OSThread) :
    List (OSSemaphore → OSSemaphore) → OSSemaphore → Nat → OSSemaphore
  | _, sem, 0 => sem
  | [], sem, _ + 1 => sem
  | wake :: rest, sem, k + 1 => observedAt self rest (wake (asleepOn self sem)) k

/-- Successive calls of `OSWaitSemaphore` numbered `i, i+1, …, i+n-1`, call `j` made by
thread `self j` in environment `env j`, each on the semaphore the previous one left.  The
result is the returned values in call order and the final semaphore, or `none` as soon as
a call does not return. -/
def waitTimes (Tag : Nat) (self : Nat → OSThread)
    (env : Nat → List (OSSemaphore → OSSemaphore)) : Nat → Nat → OSSemaphore →
    Option (List Int × OSSemaphore)
  | 0, _, sem => some ([], sem)
  | n + 1, i, sem =>
    match OSWaitSemaphore Tag (self i) (env i) (some sem) with
    | .returned value sem1 _ =>
      match waitTimes Tag self env n (i + 1) sem1 with
      | some (values, sem2) => some (value :: values, sem2)
      | none => none
    | _ => none

/-- The semaphore after another thread has called `OSSignalSemaphore` on it; the form of
an environment step in which the only thing that happens while the caller sleeps is one
signal. -/
def afterSignal (Tag : Nat) (extra : Nat) (sem : OSSemaphore) : OSSemaphore :=
  match OSSignalSemaphore Tag extra (some sem) with
  | .returned _ sem1 _ => sem1
  | _ => sem

/-- The condition under which the `decaf_check` at the head of every semaphore function
fails: `semaphore` is null or its tag is not `OSSemaphore::Tag`. -/
def checkFails (Tag : Nat) (semaphore : Option OSSemaphore) : Prop :=
  ∀ sem, semaphore = some sem → sem.tag ≠ Tag

end coreinit

/-! ## Guest memory translation (`libcpu/mem.h`) -/

namespace mem

/-- The number of values of a host `size_t` or pointer. -/
def hostWordSize : Nat := 18446744073709551616

/-- The 4 GiB view of guest memory that starts at `mem::base()` lies inside the host
address space. -/
def MappedBase (base : Nat) : Prop :=
  base + 0xFFFFFFFF < hostWordSize

instance (base : Nat) : Decidable (MappedBase base) := by
  unfold MappedBase
  infer_instance

/-- `mem::translate(address)`; `base` is the value of `mem::base()`. -/
def translate (base : Nat) (address : Nat) : Nat :=
  if address = 0 then 0 else (base + address) % hostWordSize

/-- `mem::untranslate(ptr)`; `none` when one of the two `decaf_check`s fails.  The
subtraction is only reached with `base < ptr`; the cast to `ppcaddr_t` keeps the low 32
bits. -/
def untranslate (base : Nat) (ptr : Nat) : Option Nat :=
  if ptr = 0 then some 0
  else if ¬ (ptr > base) then none
  else if ¬ (ptr ≤ (base + 0xFFFFFFFF) % hostWordSize) then none
  else some ((ptr - base) % 4294967296)

end mem

namespace coreinit

/-! ## Block heap (`coreinit_memblockheap.cpp`) -/

/-- The struct `MEMBlockHeapBlock`: a descriptor of the data range `[start, end)`.
Pointers to descriptors are guest addresses, `none` for null. -/
structure MEMBlockHeapBlock where
  start : Nat
  stop : Nat
  isFree : Bool
  prev : Option Nat
  next : Option Nat
  deriving DecidableEq, Repr, Inhabited

/-- The fields of `MEMHeapHeader` (declared in `coreinit_memheap.h`) that the block heap
reads.  The spin lock `header.lock` is left out: taking and releasing it changes nothing
else. -/
structure MEMHeapHeader where
  tag : Nat
  dataStart : Nat
  dataEnd : Nat
  flags : Nat
  deriving DecidableEq, Repr, Inhabited

/-- The struct `MEMBlockHeapTracking`, the header of a tracking region: the address of its
first descriptor and the number of descriptors. -/
structure MEMBlockHeapTracking where
  blocks : Option Nat
  blockCount : Nat
  deriving DecidableEq, Repr, Inhabited

/-- The struct `MEMBlockHeap` together with the descriptor storage its pointers refer to:
`blocks a` is the descriptor stored at address `a` (the embedded `defaultBlock` and the
descriptors of every tracking region alike). -/
structure MEMBlockHeap where
  header : MEMHeapHeader
  defaultTrack : MEMBlockHeapTracking
  blocks : Nat → MEMBlockHeapBlock
  firstBlock : Option Nat
  lastBlock : Option Nat
  firstFreeBlock : Option Nat
  numFreeBlocks : Nat

/-- The helpers `align_up` and `align_down` of `common/align.h`, which is not part of the
sources; every function below takes them as given. -/
structure AlignOps where
  align_up : Nat → Int → Nat
  align_down : Nat → Int → Nat

/-- How a call of a block heap function ends: it returns a value, a `decaf_check` fails,
or a walk along the block list has not reached the null pointer within the fuel given. -/
inductive HeapOutcome (α : Type) where
  | returned (value : α)
  | fatal
  | unfinished
  deriving DecidableEq, Repr

/-- The loop `for (block = heap->firstBlock; block; block = block->next)` of
`MEMAllocFromBlockHeapEx`.  Both branches of the fit test continue with the next block:
the body under "If it fits, i sits" is empty.  The result says whether the walk reached
the null pointer within the fuel. -/
def allocWalkForward (ops : AlignOps) (heap : MEMBlockHeap) (size : Nat) (align : Int) :
    Nat → Option Nat → Bool
  | _, none => true
  | 0, some _ => false
  | fuel + 1, some b =>
    let block := heap.blocks b
    let alignedStart := ops.align_up block.start align
    let alignedEnd := (alignedStart + size) % 4294967296
    if block.isFree && decide (alignedEnd < block.stop) then
      allocWalkForward ops heap size align fuel block.next
    else
      allocWalkForward ops heap size align fuel block.next

/-- The loop `for (block = heap->lastBlock; block; block = block->prev)` of
`MEMAllocFromBlockHeapEx`, with the same empty body. -/
def allocWalkBackward (ops : AlignOps) (heap : MEMBlockHeap) (size : Nat) (align : Int) :
    Nat → Option Nat → Bool
  | _, none => true
  | 0, some _ => false
  | fuel + 1, some b =>
    let block := heap.blocks b
    let alignedStart := ops.align_down ((block.stop + 4294967296 - size) % 4294967296) align
    if block.isFree && decide (block.start ≤ alignedStart) then
      allocWalkBackward ops heap size align fuel block.prev
    else
      allocWalkBackward ops heap size align fuel block.prev

/-- `MEMAllocFromBlockHeapEx(heap, size, align)`; `BlockHeapTag` is the constant
`MEMHeapTag::BlockHeap`.  The value returned is the `void *`, `none` for null.  After
either loop the function reaches its only remaining statement, `return nullptr`. -/
def MEMAllocFromBlockHeapEx (BlockHeapTag : Nat) (ops : AlignOps) (fuel : Nat)
    (heap : MEMBlockHeap) (size : Nat) (align : Int) : HeapOutcome (Option Nat) :=
  if heap.header.tag ≠ BlockHeapTag then .fatal
  else if size = 0 then .returned none
  else
    let finished :=
      if 0 ≤ align then allocWalkForward ops heap size align fuel heap.firstBlock
      else allocWalkBackward ops heap size align fuel heap.lastBlock
    if finished then .returned none else .unfinished

/-- The allocation C10 describes for one block: the lowest address at or above the start
of the block that is a multiple of `align` (any address when `align` is 0), provided the
block is free and `size` bytes from there end inside the block. -/
def alignedFit (block : MEMBlockHeapBlock) (size align : Nat) : Option Nat :=
  let alignedStart := if align = 0 then block.start else (block.start + align - 1) / align * align
  if block.isFree ∧ alignedStart + size ≤ block.stop then some alignedStart else none

/-- A block heap over the data range `[0x1000, 0x2000)` as `MEMInitBlockHeap` leaves it:
one free block, stored at address `0x50`, that is both first and last. -/
def singleFreeBlockHeap (BlockHeapTag : Nat) : MEMBlockHeap where
  header := { tag := BlockHeapTag, dataStart := 0x1000, dataEnd := 0x2000, flags := 0 }
  defaultTrack := { blocks := some 0x50, blockCount := 1 }
  blocks := fun a => if a = 0x50 then ⟨0x1000, 0x2000, true, none, none⟩ else default
  firstBlock := some 0x50
  lastBlock := some 0x50
  firstFreeBlock := none
  numFreeBlocks := 0

/-- Store into the descriptor at address `a`: `change` maps its old content to the new. -/
def writeBlock (heap : MEMBlockHeap) (a : Nat)
    (change : MEMBlockHeapBlock → MEMBlockHeapBlock) : MEMBlockHeap :=
  { heap with blocks := fun x => if x = a then change (heap.blocks a) else heap.blocks x }

/-- The loop "Look forward from firstBlock" of `findBlockOwning`: the first block on the
`next` chain whose end lies above `addr`; running off the chain falls through to the
final `return nullptr`. -/
def searchForward (heap : MEMBlockHeap) (addr : Nat) : Nat → Option Nat → HeapOutcome (Option Nat)
  | _, none => .returned none
  | 0, some _ => .unfinished
  | fuel + 1, some b =>
    if (heap.blocks b).stop > addr then .returned (some b)
    else searchForward heap addr fuel (heap.blocks b).next

/-- The loop "Go backwards from lastBlock" of `findBlockOwning`: the first block on the
`prev` chain whose start is at or below `addr`. -/
def searchBackward (heap : MEMBlockHeap) (addr : Nat) : Nat → Option Nat → HeapOutcome (Option Nat)
  | _, none => .returned none
  | 0, some _ => .unfinished
  | fuel + 1, some b =>
    if (heap.blocks b).start ≤ addr then .returned (some b)
    else searchBackward heap addr fuel (heap.blocks b).prev

/-- `findBlockOwning(heap, data)`; `data` is a host pointer and `base` the value of
`mem::base()`.  The two distances are only computed for `dataStart ≤ addr < dataEnd`, so
the unsigned subtractions do not wrap. -/
def findBlockOwning (base : Nat) (fuel : Nat) (heap : MEMBlockHeap) (data : Nat) :
    HeapOutcome (Option Nat) :=
  match mem.untranslate base data with
  | none => .fatal
  | some addr =>
    if addr < heap.header.dataStart then .returned none
    else if addr ≥ heap.header.dataEnd then .returned none
    else
      let distFromEnd := heap.header.dataEnd - addr
      let distFromStart := addr - heap.header.dataStart
      if distFromStart < distFromEnd then searchForward heap addr fuel heap.firstBlock
      else searchBackward heap addr fuel heap.lastBlock

/-- "Merge with previous free block if possible" of `MEMFreeToBlockHeap`, statement by
statement.  The result is the heap and the value of the local variable `block`
afterwards. -/
def mergeWithPrevious (heap : MEMBlockHeap) (block : Nat) : MEMBlockHeap × Nat :=
  match (heap.blocks block).prev with
  | none => (heap, block)
  | some prev =>
    if (heap.blocks prev).isFree then
      let h1 := writeBlock heap prev (fun p => { p with stop := (heap.blocks block).stop })
      let h2 := writeBlock h1 prev (fun p => { p with next := (h1.blocks block).next })
      let h3 :=
        match (h2.blocks prev).next with
        | some next => writeBlock h2 next (fun n => { n with prev := some prev })
        | none => { h2 with lastBlock := some prev }
      let h4 := writeBlock h3 block (fun b => { b with prev := none })
      let h5 := writeBlock h4 block (fun b => { b with next := h4.firstFreeBlock })
      let h6 := { h5 with numFreeBlocks := (h5.numFreeBlocks + 1) % 4294967296 }
      ({ h6 with firstFreeBlock := some block }, prev)
    else (heap, block)

/-- "Merge with next free block if possible" of `MEMFreeToBlockHeap`, statement by
statement. -/
def mergeWithNext (heap : MEMBlockHeap) (block : Nat) : MEMBlockHeap :=
  match (heap.blocks block).next with
  | none => heap
  | some next =>
    if (heap.blocks next).isFree then
      let h1 := writeBlock heap block (fun b => { b with stop := (heap.blocks next).stop })
      let h2 := writeBlock h1 block (fun b => { b with next := (h1.blocks next).next })
      let h3 :=
        match (h2.blocks next).next with
        | some after => writeBlock h2 after (fun n => { n with prev := some block })
        | none => { h2 with lastBlock := some block }
      let h4 := writeBlock h3 next (fun n => { n with next := h3.firstFreeBlock })
      let h5 := { h4 with firstFreeBlock := some next }
      { h5 with numFreeBlocks := (h5.numFreeBlocks + 1) % 4294967296 }
    else heap

/-- Lines 299–338 of `MEMFreeToBlockHeap`, what is done to a block that passed the three
checks: merge with the previous block, mark free, merge with the next block.  The
`DebugMode` fill before it writes into the data range of the block only, which holds no
descriptor. -/
def freeBlock (heap : MEMBlockHeap) (block : Nat) : MEMBlockHeap :=
  let merged := mergeWithPrevious heap block
  let marked := writeBlock merged.1 merged.2 (fun b => { b with isFree := true })
  mergeWithNext marked merged.2

/-- Modelled from the spec: the comparison `block->start != data` of `MEMFreeToBlockHeap`,
between a `be_val<uint32_t>` and the host pointer `data`; `common/be_val.h`, which declares
the operator, is not part of the sources.  "Freeing an address that is not exactly a block
start … is logged and ignored": the start of the block is compared with the guest address
of `data`, the value `mem::untranslate(data)` that the warning under the check prints next
to it.  Where `mem::base()` is a multiple of `2 ^ 32` this is also the value of `data`
converted to the 32 bits of `block->start`.  The result is `none` when `untranslate` fails
its check. -/
def blockStartDiffers (base : Nat) (start : Nat) (data : Nat) : Option Bool :=
  (mem.untranslate base data).map (fun addr => decide (start ≠ addr))

/-- `MEMFreeToBlockHeap(heap, data)`; `data` is a host pointer.  The three early exits log
a warning and leave the heap alone.  `findBlockOwning` has taken the guest address of
`data` before the third check, so `untranslate` cannot fail there. -/
def MEMFreeToBlockHeap (base : Nat) (fuel : Nat) (heap : MEMBlockHeap) (data : Nat) :
    HeapOutcome MEMBlockHeap :=
  match findBlockOwning base fuel heap data with
  | .fatal => .fatal
  | .unfinished => .unfinished
  | .returned none => .returned heap
  | .returned (some block) =>
    if (heap.blocks block).isFree then .returned heap
    else
      match blockStartDiffers base (heap.blocks block).start data with
      | none => .fatal
      | some true => .returned heap
      | some false => .returned (freeBlock heap block)

/-- Modelled from the spec: `internal::registerHeap(header, tag, dataStart, dataEnd,
flags)` of `coreinit_memheap.cpp`, which is not part of the sources.  A heap is "a
free-list allocator over a fixed contiguous address range": registering records the tag,
the range and the flags in the header. -/
def registerHeap (_header : MEMHeapHeader) (tag dataStart dataEnd flags : Nat) :
    MEMHeapHeader :=
  { tag := tag, dataStart := dataStart, dataEnd := dataEnd, flags := flags }

/-- Modelled from the spec: the content of a `be_ptr` field (`virtual_ptr.h` is not part
of the sources) that holds the guest address `address`; address 0 is the null pointer.  A
host pointer assigned to such a field crosses to the guest side through
`mem::untranslate`, and "out-of-range pointers are a checked-assertion failure": the
functions below take `mem.untranslate` of the pointer first and fail where it fails. -/
def bePtr (address : Nat) : Option Nat :=
  if address = 0 then none else some address

/-- The guest address of `blocks[i]` in a tracking region at guest address `tracking`:
descriptors of `0x14` bytes follow the `0x10` byte header. -/
def trackingBlock (tracking : Nat) (i : Nat) : Nat :=
  tracking + 0x10 + 0x14 * i

/-- The host pointer `&blocks[i]`, for `blocks = tracking + 1` behind the header of the
tracking region at the host pointer `tracking`. -/
def trackingBlockPtr (tracking : Nat) (i : Nat) : Nat :=
  (tracking + 0x10 + 0x14 * i) % mem.hostWordSize

/-- The block count of `MEMAddBlockHeapTracking`:
`(size - sizeof(MEMBlockHeapTracking)) / sizeof(MEMBlockHeapBlock)`, a `size_t`
computation whose subtraction wraps around for a `size` below `0x10`. -/
def trackingBlockCount (size : Nat) : Nat :=
  if 0x10 ≤ size then (size - 0x10) / 0x14
  else (size + mem.hostWordSize - 0x10) / 0x14

/-- The loop "Setup block linked list" of `MEMAddBlockHeapTracking` with `remaining`
passes to go, the next one at index `i`; `first` is the guest address of `blocks`, so
`blocks[i]` is the descriptor at `first + 0x14 * i`.

The assignment of the host pointer `&blocks[i + 1]` to the `be_ptr` `block.next` takes
the guest address of the pointer (see `bePtr`) and fails when the pointer is outside guest
memory.  The counter `i` has 32 bits; that assignment fails before it can wrap around. -/
def linkTrackingBlocks (base tracking first : Nat) :
    Nat → Nat → MEMBlockHeap → HeapOutcome MEMBlockHeap
  | 0, _, heap => .returned heap
  | remaining + 1, i, heap =>
    match mem.untranslate base (trackingBlockPtr tracking (i + 1)) with
    | none => .fatal
    | some next =>
      linkTrackingBlocks base tracking first remaining (i + 1)
        (writeBlock heap (first + 0x14 * i)
          (fun b => { b with prev := none, next := bePtr next }))

/-- The statements under "Insert at start of block list" of `MEMAddBlockHeapTracking`, on
the heap and the header `track` of the region.  With a block count of 0 the store to
`blocks[blockCount - 1].next` goes to the four bytes in front of `blocks`, which are
`tracking->blockCount`.  The last statement adds `tracking->blocks`, the address of the
first descriptor, to `numFreeBlocks`. -/
def insertTrackingBlocks (heap : MEMBlockHeap) (first blockCount : Nat)
    (track : MEMBlockHeapTracking) : MEMBlockHeap × MEMBlockHeapTracking :=
  let stored : MEMBlockHeap × MEMBlockHeapTracking :=
    if blockCount = 0 then (heap, { track with blockCount := heap.firstFreeBlock.getD 0 })
    else
      (writeBlock heap (first + 0x14 * (blockCount - 1))
        (fun b => { b with next := heap.firstFreeBlock }), track)
  let h2 := { stored.1 with firstFreeBlock := bePtr first }
  ({ h2 with numFreeBlocks := (h2.numFreeBlocks + first) % 4294967296 }, stored.2)

/-- `MEMAddBlockHeapTracking(heap, tracking, size)`; `tracking` is the host pointer to the
region and `base` the value of `mem::base()`.  The result is the heap and the header
written to the region (the function itself returns 0).  The assignment
`tracking->blocks = blocks` takes the guest address of `blocks` as the loop does for
`&blocks[i + 1]`. -/
def MEMAddBlockHeapTracking (base : Nat) (heap : MEMBlockHeap) (tracking : Nat)
    (size : Nat) : HeapOutcome (MEMBlockHeap × MEMBlockHeapTracking) :=
  match mem.untranslate base (trackingBlockPtr tracking 0) with
  | none => .fatal
  | some first =>
    match linkTrackingBlocks base tracking first (trackingBlockCount size) 0 heap with
    | .returned linked =>
      .returned
        (insertTrackingBlocks linked first (trackingBlockCount size)
          { blockCount := trackingBlockCount size % 4294967296, blocks := bePtr first })
    | .fatal => .fatal
    | .unfinished => .unfinished

/-- The part of `MEMInitBlockHeap` between the `untranslate` calls and the call of
`MEMAddBlockHeapTracking`: register the heap, set up the default tracker and the default
block, whose guest address is `defaultBlock`, and make that block the block list. -/
def initDefaultBlock (BlockHeapTag : Nat) (defaultBlock : Nat) (heap : MEMBlockHeap)
    (dataStart dataEnd flags : Nat) : MEMBlockHeap :=
  let h1 := { heap with
    header := registerHeap heap.header BlockHeapTag dataStart dataEnd flags }
  let h2 := { h1 with defaultTrack := { blockCount := 1, blocks := bePtr defaultBlock } }
  let h3 := writeBlock h2 defaultBlock (fun _ =>
    { start := dataStart, stop := dataEnd, isFree := true, next := none, prev := none })
  { h3 with firstBlock := bePtr defaultBlock, lastBlock := bePtr defaultBlock }

/-- `MEMInitBlockHeap(heap, start, end, blocks, size, flags)`.  `self` is the host pointer
`heap`; `start`, `stop` and `tracking` are host pointers.  The assignments of
`&heap->defaultBlock`, the host pointer `self + 0x50`, to `be_ptr` fields take its guest
address as in `linkTrackingBlocks`.  The result is the heap pointer returned and the
heap. -/
def MEMInitBlockHeap (BlockHeapTag : Nat) (base : Nat) (self : Nat) (heap : MEMBlockHeap)
    (start stop : Nat) (tracking : Nat) (size : Nat) (flags : Nat) :
    HeapOutcome (Nat × MEMBlockHeap) :=
  match mem.untranslate base start, mem.untranslate base stop,
      mem.untranslate base ((self + 0x50) % mem.hostWordSize) with
  | some dataStart, some dataEnd, some defaultBlock =>
    match MEMAddBlockHeapTracking base
        (initDefaultBlock BlockHeapTag defaultBlock heap dataStart dataEnd flags)
        tracking size with
    | .returned (h5, _) => .returned (self, h5)
    | .fatal => .fatal
    | .unfinished => .unfinished
  | _, _, _ => .fatal

/-- The descriptors at the addresses of `chain`, in this order, are the block list of the
heap: `firstBlock` and `lastBlock` point to its ends and `prev` / `next` mirror each
other along it. -/
structure BlockList (heap : MEMBlockHeap) (chain : List Nat) : Prop where
  nodup : chain.Nodup
  first : heap.firstBlock = chain.head?
  last : heap.lastBlock = chain.getLast?
  headPrev : ∀ a ∈ chain.head?, (heap.blocks a).prev = none
  lastNext : ∀ a ∈ chain.getLast?, (heap.blocks a).next = none
  links : chain.Chain' (fun x y => (heap.blocks x).next = some y ∧ (heap.blocks y).prev = some x)

/-- A well-formed block heap with block list `chain`: the blocks are in strictly
increasing address order, each ends where its successor starts, and together they cover
`[dataStart, dataEnd)`. -/
structure WellFormed (heap : MEMBlockHeap) (chain : List Nat) extends
    BlockList heap chain : Prop where
  nonempty : chain ≠ []
  startsAt : ∀ a ∈ chain.head?, (heap.blocks a).start = heap.header.dataStart
  endsAt : ∀ a ∈ chain.getLast?, (heap.blocks a).stop = heap.header.dataEnd
  adjacent : chain.Chain' (fun x y =>
    (heap.blocks x).stop = (heap.blocks y).start ∧ (heap.blocks x).start < (heap.blocks y).start)
  extent : ∀ a ∈ chain, (heap.blocks a).start ≤ (heap.blocks a).stop

/-- The list of unused descriptors that starts at `first` consists of the descriptors
`pushed`, chained through `next` in this order, followed by the list that starts at
`old`. -/
def PushedOnto (blocks : Nat → MEMBlockHeapBlock) : Option Nat → List Nat → Option Nat → Prop
  | first, [], old => first = old
  | first, x :: rest, old => first = some x ∧ PushedOnto blocks (blocks x).next rest old

/-- A block heap over `[0x1000, 0x1300)` whose block list is three adjacent blocks A, B, C
of `0x100` bytes each, with descriptors at `0x50`, `0x64` and `0x78`; the arguments say
which of them are free. -/
def threeBlockHeap (freeA freeB freeC : Bool) : MEMBlockHeap where
  header := { tag := 0, dataStart := 0x1000, dataEnd := 0x1300, flags := 0 }
  defaultTrack := { blocks := some 0x50, blockCount := 1 }
  blocks := fun a =>
    if a = 0x50 then ⟨0x1000, 0x1100, freeA, none, some 0x64⟩
    else if a = 0x64 then ⟨0x1100, 0x1200, freeB, some 0x50, some 0x78⟩
    else if a = 0x78 then ⟨0x1200, 0x1300, freeC, some 0x64, none⟩
    else default
  firstBlock := some 0x50
  lastBlock := some 0x78
  firstFreeBlock := none
  numFreeBlocks := 0

/-- The block list `chain` has no two neighbours that are both free. -/
def NoAdjacentFree (heap : MEMBlockHeap) (chain : List Nat) : Prop :=
  chain.Chain' (fun x y => ¬ ((heap.blocks x).isFree = true ∧ (heap.blocks y).isFree = true))

/-! ## Sequences of semaphore calls -/

/-- One call of a semaphore function.  A call of `OSWaitSemaphore` comes with the calling
thread and with the environment it meets while it sleeps; a call of `OSSignalSemaphore`
with the scheduler's choice of how many further threads to wake. -/
inductive SemaphoreCall where
  | wait (self : OSThread) (env : List (OSSemaphore → OSSemaphore))
  | tryWait
  | signal (extra : Nat)
  | getCount

/-- The outcome of the call on the semaphore `sem`. -/
def SemaphoreCall.run (Tag : Nat) : SemaphoreCall → OSSemaphore → Outcome
  | .wait self env, sem => OSWaitSemaphore Tag self env (some sem)
  | .tryWait, sem => OSTryWaitSemaphore Tag (some sem)
  | .signal extra, sem => OSSignalSemaphore Tag extra (some sem)
  | .getCount, sem => OSGetSemaphoreCount Tag (some sem)

/-- Whether the call is a call of `OSWaitSemaphore`. -/
def SemaphoreCall.isWait : SemaphoreCall → Bool
  | .wait _ _ => true
  | _ => false

/-- Whether the call is an `OSSignalSemaphore` on a count of `INT32_MAX`, the one call
whose `count++` leaves the range of `int32_t`. -/
def SemaphoreCall.overflows : SemaphoreCall → OSSemaphore → Bool
  | .signal _, sem => decide (2147483647 ≤ sem.count)
  | _, _ => false

/-- The calls of `calls` made one after the other, each on the semaphore the previous one
left: the semaphore after each call, in call order, up to the first call that does not
return. -/
def semaphoreHistory (Tag : Nat) : List SemaphoreCall → OSSemaphore → List OSSemaphore
  | [], _ => []
  | call :: rest, sem =>
    match call.run Tag sem with
    | .returned _ sem1 _ => sem1 :: semaphoreHistory Tag rest sem1
    | _ => []

/-- None of the calls that `semaphoreHistory` makes overflows the count. -/
def withoutOverflow (Tag : Nat) : List SemaphoreCall → OSSemaphore → Prop
  | [], _ => True
  | call :: rest, sem =>
    call.overflows sem = false ∧
      match call.run Tag sem with
      | .returned _ sem1 _ => withoutOverflow Tag rest sem1
      | _ => True

/-! ## Structure layout (`coreinit_thread.h`)

`CHECK_OFFSET(Type, offset, field)` and `CHECK_SIZE(Type, size)` of `common/structsize.h`
are compile-time assertions on `offsetof` and `sizeof`; `UNKNOWN(n)` declares `n` bytes of
padding.  The structs are declared under `#pragma pack(push, 1)`. -/

/-- The sizes in bytes of the types that `coreinit_thread.h` uses and other headers
declare: guest pointers (`be_ptr<T>`, `be_wfunc_ptr<…>`), the enumerations `OSThreadState`,
`OSThreadAttributes` and `OSThreadRequest`, and the host pointer `kernel::Fiber *`. -/
structure TypeSizes where
  guestPointer : Nat
  threadState : Nat
  threadAttributes : Nat
  threadRequest : Nat
  hostPointer : Nat
  deriving DecidableEq, Repr

/-- A declared member of a struct: its name, the size of its type and the alignment the
type asks for. -/
structure Member where
  name : String
  size : Nat
  align : Nat
  deriving DecidableEq, Repr

/-- A member of scalar type, such as `be_val<uint32_t> cr`: aligned to its size. -/
def Member.scalar (name : String) (size : Nat) : Member :=
  { name := name, size := size, align := size }

/-- An array member, such as `be_val<uint32_t> gpr[32]`: aligned as its element. -/
def Member.array (name : String) (elemSize count : Nat) : Member :=
  { name := name, size := elemSize * count, align := elemSize }

/-- The padding `UNKNOWN(size)`, an unnamed array of bytes. -/
def Member.unknown (size : Nat) : Member :=
  { name := "", size := size, align := 1 }

/-- The first offset at or after `offset` that is a multiple of `align`. -/
def alignTo (offset align : Nat) : Nat :=
  if align ≤ 1 then offset else (offset + align - 1) / align * align

/-- The offsets of the members of a struct laid out from `offset` on under
`#pragma pack(pack)`: each member goes to the next offset aligned to the smaller of `pack`
and the alignment of its type. -/
def placeMembers (pack : Nat) : Nat → List Member → List (String × Nat)
  | _, [] => []
  | offset, m :: rest =>
    let here := alignTo offset (min pack m.align)
    (m.name, here) :: placeMembers pack (here + m.size) rest

/-- The offset behind the last member. -/
def endOfMembers (pack : Nat) : Nat → List Member → Nat
  | offset, [] => offset
  | offset, m :: rest => endOfMembers pack (alignTo offset (min pack m.align) + m.size) rest

/-- The alignment of a struct: the largest alignment among its members. -/
def structAlign (pack : Nat) (members : List Member) : Nat :=
  (members.map (fun m => min pack m.align)).foldl max 1

/-- The value of `sizeof`: the end of the last member, rounded up to the alignment of the
struct. -/
def structSize (pack : Nat) (members : List Member) : Nat :=
  alignTo (endOfMembers pack 0 members) (structAlign pack members)

/-- A member whose type is a struct with the given members. -/
def Member.nested (pack : Nat) (name : String) (members : List Member) : Member :=
  { name := name, size := structSize pack members, align := structAlign pack members }

/-- The value of `offsetof` for the member called `name`. -/
def offsetOf (pack : Nat) (members : List Member) (name : String) : Option Nat :=
  ((placeMembers pack 0 members).find? (fun p => p.1 == name)).map (fun p => p.2)

/-- Every `CHECK_OFFSET` line of `checks`, given as field name and asserted offset, holds
for the struct. -/
def checksHold (pack : Nat) (members : List Member) (checks : List (String × Nat)) : Prop :=
  ∀ check ∈ checks, offsetOf pack members check.1 = some check.2

instance (pack : Nat) (members : List Member) (checks : List (String × Nat)) :
    Decidable (checksHold pack members checks) := by
  unfold checksHold
  infer_instance

/-- The members of `struct OSContext`, in declaration order. -/
def OSContext.members (sizes : TypeSizes) : List Member :=
  [ .scalar "tag" 8,
    .array "gpr" 4 32,
    .scalar "cr" 4,
    .scalar "lr" 4,
    .scalar "ctr" 4,
    .scalar "xer" 4,
    .scalar "nia" 4,
    .scalar "cia" 4,
    .unknown 0x14,
    .scalar "fpscr" 4,
    .array "fpr" 8 32,
    .scalar "spinLockCount" 2,
    .scalar "state" 2,
    .array "gqr" 4 8,
    .unknown 4,
    .array "psf" 8 32,
    .array "coretime" 8 3,
    .scalar "starttime" 8,
    .scalar "error" 4,
    .unknown 4,
    .scalar "pmc1" 4,
    .scalar "pmc2" 4,
    .scalar "fiber" sizes.hostPointer,
    .scalar "mmcr0" 4,
    .scalar "mmcr1" 4 ]

/-- The `CHECK_OFFSET(OSContext, …)` lines. -/
def OSContext.checkOffsets : List (String × Nat) :=
  [ ("tag", 0x00), ("gpr", 0x08), ("cr", 0x88), ("lr", 0x8c), ("ctr", 0x90), ("xer", 0x94),
    ("fpscr", 0xb4), ("fpr", 0xb8), ("spinLockCount", 0x1b8), ("state", 0x1ba),
    ("gqr", 0x1bc), ("psf", 0x1e0), ("coretime", 0x2e0), ("starttime", 0x2f8),
    ("error", 0x300), ("pmc1", 0x308), ("pmc2", 0x30c), ("mmcr0", 0x318), ("mmcr1", 0x31c) ]

/-- The line `CHECK_SIZE(OSContext, 0x320)`. -/
def OSContext.checkSize : Nat := 0x320

/-- The members of `struct OSThreadLink`. -/
def OSThreadLink.members (sizes : TypeSizes) : List Member :=
  [ .scalar "prev" sizes.guestPointer,
    .scalar "next" sizes.guestPointer ]

/-- The members of `struct OSThreadQueue`. -/
def OSThreadQueue.members (sizes : TypeSizes) : List Member :=
  [ .scalar "head" sizes.guestPointer,
    .scalar "tail" sizes.guestPointer,
    .scalar "parent" sizes.guestPointer,
    .unknown 4 ]

/-- The members of `struct OSMutexQueue`. -/
def OSMutexQueue.members (sizes : TypeSizes) : List Member :=
  [ .scalar "head" sizes.guestPointer,
    .scalar "tail" sizes.guestPointer,
    .scalar "parent" sizes.guestPointer,
    .unknown 4 ]

/-- The members of `struct OSThread`, in declaration order. -/
def OSThread.members (pack : Nat) (sizes : TypeSizes) : List Member :=
  [ .nested pack "context" (OSContext.members sizes),
    .scalar "tag" 4,
    .scalar "state" sizes.threadState,
    .scalar "attr" sizes.threadAttributes,
    .scalar "id" 2,
    .scalar "suspendCounter" 4,
    .scalar "priority" 4,
    .scalar "basePriority" 4,
    .scalar "exitValue" 4,
    .scalar "coreRunQueue0" sizes.guestPointer,
    .scalar "coreRunQueue1" sizes.guestPointer,
    .scalar "coreRunQueue2" sizes.guestPointer,
    .nested pack "coreRunQueueLink0" (OSThreadLink.members sizes),
    .nested pack "coreRunQueueLink1" (OSThreadLink.members sizes),
    .nested pack "coreRunQueueLink2" (OSThreadLink.members sizes),
    .scalar "queue" sizes.guestPointer,
    .nested pack "link" (OSThreadLink.members sizes),
    .nested pack "joinQueue" (OSThreadQueue.members sizes),
    .scalar "mutex" sizes.guestPointer,
    .nested pack "mutexQueue" (OSMutexQueue.members sizes),
    .nested pack "activeLink" (OSThreadLink.members sizes),
    .scalar "stackStart" sizes.guestPointer,
    .scalar "stackEnd" sizes.guestPointer,
    .scalar "entryPoint" sizes.guestPointer,
    .unknown (0x408 - 0x3a0),
    .scalar "_ghs__eh_globals" sizes.guestPointer,
    .array "_ghs__eh_mem_manage" sizes.guestPointer 9,
    .array "_ghs__eh_store_globals" sizes.guestPointer 6,
    .array "_ghs__eh_store_globals_tdeh" sizes.guestPointer 76,
    .scalar "alarmCancelled" 4,
    .array "specific" 4 0x10,
    .unknown (0x5c0 - 0x5bc),
    .scalar "name" sizes.guestPointer,
    .scalar "waitEventTimeoutAlarm" sizes.guestPointer,
    .scalar "userStackPointer" sizes.guestPointer,
    .scalar "cleanupCallback" sizes.guestPointer,
    .scalar "deallocator" sizes.guestPointer,
    .scalar "cancelState" 4,
    .scalar "requestFlag" sizes.threadRequest,
    .scalar "needSuspend" 4,
    .scalar "suspendResult" 4,
    .nested pack "suspendQueue" (OSThreadQueue.members sizes),
    .unknown 0xC,
    .scalar "coreTimeConsumedNs" 8,
    .scalar "wakeCount" 8,
    .unknown (0x664 - 0x610),
    .scalar "tlsSectionCount" 2,
    .unknown 0x2,
    .scalar "tlsSections" sizes.guestPointer,
    .unknown (0x69c - 0x66C) ]

/-- The `CHECK_OFFSET(OSThread, …)` lines. -/
def OSThread.checkOffsets : List (String × Nat) :=
  [ ("tag", 0x320), ("state", 0x324), ("attr", 0x325), ("id", 0x326),
    ("suspendCounter", 0x328), ("priority", 0x32c), ("basePriority", 0x330),
    ("exitValue", 0x334), ("coreRunQueue0", 0x338), ("coreRunQueue1", 0x33C),
    ("coreRunQueue2", 0x340), ("coreRunQueueLink0", 0x344), ("coreRunQueueLink1", 0x34C),
    ("coreRunQueueLink2", 0x354), ("queue", 0x35c), ("link", 0x360), ("joinQueue", 0x368),
    ("mutex", 0x378), ("mutexQueue", 0x37c), ("activeLink", 0x38c), ("stackStart", 0x394),
    ("stackEnd", 0x398), ("entryPoint", 0x39c), ("alarmCancelled", 0x578),
    ("specific", 0x57c), ("name", 0x5c0), ("waitEventTimeoutAlarm", 0x5c4),
    ("userStackPointer", 0x5c8), ("cleanupCallback", 0x5cc), ("deallocator", 0x5d0),
    ("cancelState", 0x5d4), ("requestFlag", 0x5d8), ("needSuspend", 0x5dc),
    ("suspendResult", 0x5e0), ("suspendQueue", 0x5e4), ("coreTimeConsumedNs", 0x600),
    ("wakeCount", 0x608), ("tlsSectionCount", 0x664), ("tlsSections", 0x668) ]

/-- The line `CHECK_SIZE(OSThread, 0x69c)`. -/
def OSThread.checkSize : Nat := 0x69c

end coreinit

/-! ## The initialisation flag of `nn::boss` (`nn_boss_init.cpp`) -/

namespace nn.boss

/-- The initial value of the static `gInitialised`. -/
def gInitialised : Bool := false

/-- `nn::boss::Initialize()`: the value returned and the flag afterwards.  `Success` is
the constant `nn::Result::Success`, declared outside the sources. -/
def Initialize (Success : Nat) (_flag : Bool) : Nat × Bool :=
  (Success, true)

/-- `nn::boss::Finalize()`: the value returned and the flag afterwards. -/
def Finalize (Success : Nat) (_flag : Bool) : Nat × Bool :=
  (Success, false)

/-- `nn::boss::IsInitialized()`: the value returned and the flag afterwards. -/
def IsInitialized (flag : Bool) : Bool × Bool :=
  (flag, flag)

/-- A call of one of the three functions. -/
inductive Call where
  | Initialize
  | Finalize
  | IsInitialized
  deriving DecidableEq, Repr

/-- What a call returns: an `nn::Result` or a `bool`. -/
inductive Returned where
  | result (value : Nat)
  | bool (value : Bool)
  deriving DecidableEq, Repr

/-- The value a call returns and the flag after it. -/
def Call.run (Success : Nat) : Call → Bool → Returned × Bool
  | .Initialize, flag =>
    (.result (nn.boss.Initialize Success flag).1, (nn.boss.Initialize Success flag).2)
  | .Finalize, flag =>
    (.result (nn.boss.Finalize Success flag).1, (nn.boss.Finalize Success flag).2)
  | .IsInitialized, flag =>
    (.bool (nn.boss.IsInitialized flag).1, (nn.boss.IsInitialized flag).2)

/-- The calls of `calls` made one after the other: the values returned, in call order, and
the flag after the last call. -/
def runCalls (Success : Nat) : List Call → Bool → List Returned × Bool
  | [], flag => ([], flag)
  | call :: rest, flag =>
    let first := call.run Success flag
    let others := runCalls Success rest first.2
    (first.1 :: others.1, others.2)

/-- The last call of the sequence that is an `Initialize` or a `Finalize`. -/
def lastSetter (calls : List Call) : Option Call :=
  (calls.reverse.find? (fun call => call ≠ .IsInitialized))

end nn.boss

namespace coreinit

/-! ## Semaphore theorems -/

/-- C1: with a valid tag and count `n`, `OSTryWaitSemaphore` returns `n` without putting
the caller to sleep (the outcome is a return, the wait queue is untouched and nothing is
woken); the count afterwards is `n - 1` when `0 < n` and still `n` otherwise. -/
theorem OSTryWaitSemaphore_returns_previous (Tag : Nat) (sem : OSSemaphore)
    (htag : sem.tag = Tag) :
    OSTryWaitSemaphore Tag (some sem) =
      .returned sem.count
        { sem with count := if 0 < sem.count then sem.count - 1 else sem.count } [] := by
  subst htag
  unfold OSTryWaitSemaphore
  by_cases hpos : 0 < sem.count
  · simp [hpos]
  · simp [hpos]

/-- C1 at a concrete semaphore: count 2 is returned and becomes 1. -/
theorem OSTryWaitSemaphore_returns_previous_witness :
    OSTryWaitSemaphore 7 (some ⟨7, none, 2, ⟨[], none⟩⟩) =
      .returned 2 ⟨7, none, 1, ⟨[], none⟩⟩ [] := by
  simpa using OSTryWaitSemaphore_returns_previous 7 ⟨7, none, 2, ⟨[], none⟩⟩ rfl

/-- The loop of `OSWaitSemaphore` leaves at the first observation with a positive count,
and only there; when no observation is positive the caller stays blocked. -/
theorem waitLoop_cases (self : OSThread) :
    ∀ (env : List (OSSemaphore → OSSemaphore)) (sem : OSSemaphore),
      (∃ k, k ≤ env.length ∧ (∀ j, j < k → (observedAt self env sem j).count ≤ 0) ∧
          0 < (observedAt self env sem k).count ∧
          waitLoop self env sem =
            .returned (observedAt self env sem k).count
              { observedAt self env sem k with
                  count := (observedAt self env sem k).count - 1 } []) ∨
      ((∀ j, j ≤ env.length → (observedAt self env sem j).count ≤ 0) ∧
          waitLoop self env sem =
            .blocked (asleepOn self (observedAt self env sem env.length))) := by
  intro env
  induction env with
  | nil =>
    intro sem
    by_cases h : sem.count ≤ 0
    · right
      refine ⟨?_, ?_⟩
      · intro j _
        cases j <;> simpa [observedAt] using h
      · simp [waitLoop, observedAt, h]
    · left
      refine ⟨0, le_refl _, ?_, ?_, ?_⟩
      · intro j hj
        omega
      · simpa [observedAt] using h
      · simp [waitLoop, observedAt, h]
  | cons wake rest ih =>
    intro sem
    by_cases h : sem.count ≤ 0
    · rcases ih (wake (asleepOn self sem)) with ⟨k, hk, hlow, hpos, hres⟩ | ⟨hlow, hres⟩
      · left
        refine ⟨k + 1, by simpa using hk, ?_, ?_, ?_⟩
        · intro j hj
          cases j with
          | zero => simpa [observedAt] using h
          | succ i => simpa [observedAt] using hlow i (by omega)
        · simpa [observedAt] using hpos
        · simpa [waitLoop, observedAt, h] using hres
      · right
        refine ⟨?_, ?_⟩
        · intro j hj
          cases j with
          | zero => simpa [observedAt] using h
          | succ i => simpa [observedAt] using hlow i (by simpa using hj)
        · simpa [waitLoop, observedAt, h] using hres
    · left
      refine ⟨0, Nat.zero_le _, ?_, ?_, ?_⟩
      · intro j hj
        omega
      · simpa [observedAt] using h
      · simp [waitLoop, observedAt, h]

/-- A valid semaphore whose count is `≤ 0` at every observation leaves the caller of
`OSWaitSemaphore` blocked, with the count as last observed. -/
theorem OSWaitSemaphore_blocked_of_nonpos (Tag : Nat) (self : OSThread)
    (env : List (OSSemaphore → OSSemaphore)) (sem : OSSemaphore) (htag : sem.tag = Tag)
    (hall : ∀ j, j ≤ env.length → (observedAt self env sem j).count ≤ 0) :
    OSWaitSemaphore Tag self env (some sem) =
      .blocked (asleepOn self (observedAt self env sem env.length)) := by
  have hrun : OSWaitSemaphore Tag self env (some sem) = waitLoop self env sem := by
    simp [OSWaitSemaphore, htag]
  rw [hrun]
  rcases waitLoop_cases self env sem with ⟨k, hk, _, hpos, _⟩ | ⟨_, hres⟩
  · have := hall k hk
    omega
  · exact hres

/-- C2: for a valid semaphore and every environment, (1) whenever `OSWaitSemaphore`
returns, it returns at some observation `k` (entry or a wake): every earlier observation
had count `≤ 0`, the returned value is the count observed there, it is positive, and the
semaphore is left as observed with the count lowered by exactly one; (2) while every
observation has count `≤ 0` the call does not return and the count is not changed by it;
(3) at the first observation with a positive count it does return. -/
theorem OSWaitSemaphore_returns_observed_count (Tag : Nat) (self : OSThread)
    (env : List (OSSemaphore → OSSemaphore)) (sem : OSSemaphore) (htag : sem.tag = Tag) :
    (∀ value sem1 woken,
        OSWaitSemaphore Tag self env (some sem) = .returned value sem1 woken →
        ∃ k, k ≤ env.length ∧ (∀ j, j < k → (observedAt self env sem j).count ≤ 0) ∧
          (observedAt self env sem k).count = value ∧ 0 < value ∧
          sem1 = { observedAt self env sem k with count := value - 1 } ∧ woken = []) ∧
    ((∀ j, j ≤ env.length → (observedAt self env sem j).count ≤ 0) →
        OSWaitSemaphore Tag self env (some sem) =
          .blocked (asleepOn self (observedAt self env sem env.length))) ∧
    (∀ k, k ≤ env.length → (∀ j, j < k → (observedAt self env sem j).count ≤ 0) →
        0 < (observedAt self env sem k).count →
        OSWaitSemaphore Tag self env (some sem) =
          .returned (observedAt self env sem k).count
            { observedAt self env sem k with
                count := (observedAt self env sem k).count - 1 } []) := by
  have hrun : OSWaitSemaphore Tag self env (some sem) = waitLoop self env sem := by
    simp [OSWaitSemaphore, htag]
  rw [hrun]
  refine ⟨?_, ?_, ?_⟩
  · intro value sem1 woken hret
    rcases waitLoop_cases self env sem with ⟨k, hk, hlow, hpos, hres⟩ | ⟨_, hres⟩
    · rw [hres] at hret
      injection hret with hv hs hw
      subst hv
      exact ⟨k, hk, hlow, rfl, hpos, hs.symm, hw.symm⟩
    · rw [hres] at hret
      cases hret
  · intro hall
    rcases waitLoop_cases self env sem with ⟨k, hk, _, hpos, _⟩ | ⟨_, hres⟩
    · have := hall k hk
      omega
    · exact hres
  · intro k hk hlow hpos
    rcases waitLoop_cases self env sem with ⟨k1, hk1, hlow1, hpos1, hres⟩ | ⟨hall, _⟩
    · have hkk : k1 = k := by
        rcases Nat.lt_trichotomy k1 k with hlt | heq | hgt
        · have := hlow k1 hlt
          omega
        · exact heq
        · have := hlow1 k hgt
          omega
      subst hkk
      exact hres
    · have := hall k hk
      omega

/-- C2 at a concrete run: the caller finds count 0 on entry and again at its first wake,
and returns 3 at its second wake, leaving count 2. -/
theorem OSWaitSemaphore_returns_observed_count_witness :
    OSWaitSemaphore 7 ⟨1, 16⟩
        [fun s => { s with queue := ⟨[], none⟩ },
         fun s => { s with count := 3, queue := ⟨[], none⟩ }]
        (some ⟨7, none, 0, ⟨[], none⟩⟩) =
      .returned 3 ⟨7, none, 2, ⟨[], none⟩⟩ [] := by
  have h := (OSWaitSemaphore_returns_observed_count 7 ⟨1, 16⟩
      [fun s => { s with queue := ⟨[], none⟩ },
       fun s => { s with count := 3, queue := ⟨[], none⟩ }]
      ⟨7, none, 0, ⟨[], none⟩⟩ rfl).2.2 2 (by decide)
      (by
        intro j hj
        interval_cases j <;> simp [observedAt, asleepOn])
      (by simp [observedAt, asleepOn])
  simpa [observedAt, asleepOn] using h

/-- C3: with a valid tag and an `int32_t` count `n`, `OSSignalSemaphore` returns `n` and
leaves a count that is again an `int32_t`, congruent to `n + 1` modulo `2 ^ 32`: it is
`n + 1` below `INT32_MAX` and `INT32_MIN` at `INT32_MAX`.  Tag and name are kept.  This
holds for every wait queue, empty or not, and every choice of the scheduler. -/
theorem OSSignalSemaphore_adds_one (Tag : Nat) (extra : Nat) (sem : OSSemaphore)
    (htag : sem.tag = Tag) (hn : isInt32 sem.count) :
    ∃ sem1 woken,
      OSSignalSemaphore Tag extra (some sem) = .returned sem.count sem1 woken ∧
      sem1.tag = sem.tag ∧ sem1.name = sem.name ∧
      isInt32 sem1.count ∧
      (sem1.count - (sem.count + 1)) % 4294967296 = 0 ∧
      (sem.count < 2147483647 → sem1.count = sem.count + 1) ∧
      (sem.count = 2147483647 → sem1.count = -2147483648) := by
  subst htag
  unfold isInt32 at hn
  refine ⟨{ sem with count := wrapInt32 (sem.count + 1),
                      queue := (wakeupThreadNoLock extra sem.queue).2 },
    (wakeupThreadNoLock extra sem.queue).1, by simp [OSSignalSemaphore], rfl, rfl,
    ?_, ?_, ?_, ?_⟩
  · simp only [wrapInt32, isInt32]
    omega
  · simp only [wrapInt32]
    omega
  · intro h
    simp only [wrapInt32]
    omega
  · intro h
    simp only [wrapInt32]
    omega

/-- C3 at a concrete semaphore with a waiter: count 5 is returned and becomes 6. -/
theorem OSSignalSemaphore_adds_one_witness :
    ∃ sem1 woken,
      OSSignalSemaphore 7 0 (some ⟨7, none, 5, ⟨[⟨1, 16⟩], none⟩⟩) =
        .returned 5 sem1 woken ∧ sem1.count = 6 := by
  obtain ⟨sem1, woken, hret, _, _, _, _, hinc, _⟩ :=
    OSSignalSemaphore_adds_one 7 0 ⟨7, none, 5, ⟨[⟨1, 16⟩], none⟩⟩ rfl (by decide)
  exact ⟨sem1, woken, hret, hinc (by decide)⟩

/-- While the count is positive, successive waits return it step by step: `n` calls on a
valid semaphore with count `c ≥ n` return `c, c - 1, …` and leave count `c - n`,
whatever the environments are. -/
theorem waitTimes_countdown (Tag : Nat) (self : Nat → OSThread)
    (env : Nat → List (OSSemaphore → OSSemaphore)) :
    ∀ (n i : Nat) (sem : OSSemaphore) (c : Nat), sem.tag = Tag → sem.count = c → n ≤ c →
      waitTimes Tag self env n i sem =
        some ((List.range n).map (fun j : Nat => (c : Int) - (j : Int)),
              { sem with count := (c : Int) - n }) := by
  intro n
  induction n with
  | zero =>
    intro i sem c _ hc _
    simp [waitTimes, ← hc]
  | succ n ih =>
    intro i sem c htag hc hle
    obtain ⟨d, rfl⟩ : ∃ d, c = d + 1 := ⟨c - 1, by omega⟩
    have hpos : ¬ sem.count ≤ 0 := by
      rw [hc]
      push_cast
      omega
    have hcall : OSWaitSemaphore Tag (self i) (env i) (some sem) =
        .returned sem.count { sem with count := sem.count - 1 } [] := by
      show (if sem.tag = Tag then waitLoop (self i) (env i) sem else .fatal (some sem)) = _
      rw [if_pos htag]
      cases env i <;> simp [waitLoop, hpos]
    have hnext := ih (i + 1) { sem with count := sem.count - 1 } d htag
      (by simp [hc]) (by omega)
    rw [waitTimes, hcall]
    simp only [hnext]
    rw [List.range_succ_eq_map]
    simp only [List.map_cons, List.map_map, hc]
    refine congrArg some (Prod.ext ?_ ?_)
    · simp only [List.cons.injEq]
      refine ⟨by simp, ?_⟩
      apply List.map_congr_left
      intro j _
      simp only [Function.comp]
      push_cast
      omega
    · simp only [OSSemaphore.mk.injEq, true_and, and_true]
      push_cast
      omega

/-- An environment that never leaves the count above zero keeps every observation of a
waiting caller at `≤ 0`. -/
theorem observedAt_nonpos (self : OSThread) :
    ∀ (env : List (OSSemaphore → OSSemaphore)) (sem : OSSemaphore) (j : Nat),
      (∀ wake ∈ env, ∀ s : OSSemaphore, s.count ≤ 0 → (wake s).count ≤ 0) →
      sem.count ≤ 0 → (observedAt self env sem j).count ≤ 0 := by
  intro env
  induction env with
  | nil =>
    intro sem j _ h
    cases j <;> simpa [observedAt] using h
  | cons wake rest ih =>
    intro sem j henv h
    cases j with
    | zero => simpa [observedAt] using h
    | succ i =>
      simp only [observedAt]
      apply ih
      · intro w hw s hs
        exact henv w (List.mem_cons_of_mem _ hw) s hs
      · apply henv wake (List.mem_cons_self _ _)
        simpa [asleepOn] using h

/-- C5: on a semaphore initialised with count `c ≥ 0`, the first `c` calls of
`OSWaitSemaphore` return `c, c - 1, …, 1` in that order in every environment (so also in
the one that never resumes a sleeper: none of them sleeps) and leave count 0; the next
call puts its caller on the empty wait queue and stays blocked in every environment that
does not raise the count above zero; once a signal has happened while it sleeps, it
returns 1. -/
theorem OSWaitSemaphore_initial_count (Tag addr : Nat) (prior : OSSemaphore)
    (name : Option String) (c : Nat) (self : Nat → OSThread)
    (env : Nat → List (OSSemaphore → OSSemaphore)) :
    waitTimes Tag self env c 0 (OSInitSemaphoreEx Tag addr prior c name) =
      some ((List.range c).map (fun j : Nat => (c : Int) - (j : Int)),
            OSInitSemaphoreEx Tag addr prior 0 name) ∧
    OSWaitSemaphore Tag (self c) [] (some (OSInitSemaphoreEx Tag addr prior 0 name)) =
      .blocked ⟨Tag, name, 0, ⟨[self c], some addr⟩⟩ ∧
    (∀ e : List (OSSemaphore → OSSemaphore),
      (∀ wake ∈ e, ∀ s : OSSemaphore, s.count ≤ 0 → (wake s).count ≤ 0) →
      ∃ s, OSWaitSemaphore Tag (self c) e (some (OSInitSemaphoreEx Tag addr prior 0 name)) =
        .blocked s ∧ s.count ≤ 0) ∧
    (∀ extra, OSWaitSemaphore Tag (self c) [afterSignal Tag extra]
        (some (OSInitSemaphoreEx Tag addr prior 0 name)) =
      .returned 1 ⟨Tag, name, 0, ⟨[], some addr⟩⟩ []) := by
  refine ⟨?_, ?_, ?_, ?_⟩
  · have h := waitTimes_countdown Tag self env c 0 (OSInitSemaphoreEx Tag addr prior c name)
      c rfl rfl (le_refl c)
    rw [h]
    simp [OSInitSemaphoreEx]
  · simp [OSWaitSemaphore, OSInitSemaphoreEx, waitLoop, asleepOn, sleepThreadNoLock,
      ThreadQueue.insert, ThreadQueue.insertSorted, OSInitThreadQueueEx]
  · intro e he
    have hlow : ∀ j, j ≤ e.length →
        (observedAt (self c) e (OSInitSemaphoreEx Tag addr prior 0 name) j).count ≤ 0 :=
      fun j _ => observedAt_nonpos (self c) e _ j he (by simp [OSInitSemaphoreEx])
    have h := (OSWaitSemaphore_blocked_of_nonpos Tag (self c) e
      (OSInitSemaphoreEx Tag addr prior 0 name) rfl) hlow
    exact ⟨_, h, by simpa [asleepOn] using hlow e.length (le_refl _)⟩
  · intro extra
    simp [OSWaitSemaphore, OSInitSemaphoreEx, waitLoop, asleepOn, sleepThreadNoLock,
      ThreadQueue.insert, ThreadQueue.insertSorted, OSInitThreadQueueEx, afterSignal,
      OSSignalSemaphore, wakeupThreadNoLock, wrapInt32]

/-- C5 at count 2: two waits return 2 and 1, and the third stays blocked when the only
wake-up finds the semaphore as the sleeper left it. -/
theorem OSWaitSemaphore_initial_count_witness :
    waitTimes 7 (fun i => ⟨i, 16⟩) (fun _ => []) 2 0
        (OSInitSemaphoreEx 7 4096 ⟨0, none, 0, ⟨[], none⟩⟩ 2 none) =
      some ([2, 1], OSInitSemaphoreEx 7 4096 ⟨0, none, 0, ⟨[], none⟩⟩ 0 none) ∧
    ∃ s, OSWaitSemaphore 7 ⟨2, 16⟩ [fun s => s]
        (some (OSInitSemaphoreEx 7 4096 ⟨0, none, 0, ⟨[], none⟩⟩ 0 none)) = .blocked s ∧
      s.count ≤ 0 := by
  have h := OSWaitSemaphore_initial_count 7 4096 ⟨0, none, 0, ⟨[], none⟩⟩ none 2
    (fun i => ⟨i, 16⟩) (fun _ => [])
  refine ⟨by simpa [List.range_succ] using h.1, ?_⟩
  exact h.2.2.1 [fun s => s] (by
    intro wake hw s hs
    have hid : wake = fun s => s := by simpa using hw
    subst hid
    exact hs)

/-- C6 as stated fails: count 1, thread A waits and gets the unit, thread B waits and
blocks, a signal wakes B; `OSGetSemaphoreCount` called right after the signal, before B
has run again, returns 1 and not 0. -/
theorem OSGetSemaphoreCount_after_signal_returns_one :
    OSWaitSemaphore 7 ⟨1, 16⟩ []
        (some (OSInitSemaphoreEx 7 4096 ⟨0, none, 0, ⟨[], none⟩⟩ 1 none)) =
      .returned 1 ⟨7, none, 0, ⟨[], some 4096⟩⟩ [] ∧
    OSWaitSemaphore 7 ⟨2, 16⟩ [] (some ⟨7, none, 0, ⟨[], some 4096⟩⟩) =
      .blocked ⟨7, none, 0, ⟨[⟨2, 16⟩], some 4096⟩⟩ ∧
    OSSignalSemaphore 7 0 (some ⟨7, none, 0, ⟨[⟨2, 16⟩], some 4096⟩⟩) =
      .returned 0 ⟨7, none, 1, ⟨[], some 4096⟩⟩ [⟨2, 16⟩] ∧
    OSGetSemaphoreCount 7 (some ⟨7, none, 1, ⟨[], some 4096⟩⟩) =
      .returned 1 ⟨7, none, 1, ⟨[], some 4096⟩⟩ [] := by
  decide

/-- C6, amended: a semaphore is initialised with count 1; A's wait returns 1 and leaves
count 0; B's wait puts B on the wait queue; `OSSignalSemaphore` returns 0, raises the
count to 1 and wakes B.  `OSGetSemaphoreCount` called after the signal and before B has
run again returns 1.  B, once resumed, returns 1 from its wait and lowers the count to 0,
and `OSGetSemaphoreCount` called after that returns 0. -/
theorem OSSignalSemaphore_then_waiter_takes_unit (Tag addr : Nat) (prior : OSSemaphore)
    (name : Option String) (A B : OSThread) (extra : Nat) :
    OSWaitSemaphore Tag A [] (some (OSInitSemaphoreEx Tag addr prior 1 name)) =
      .returned 1 ⟨Tag, name, 0, ⟨[], some addr⟩⟩ [] ∧
    OSWaitSemaphore Tag B [] (some ⟨Tag, name, 0, ⟨[], some addr⟩⟩) =
      .blocked ⟨Tag, name, 0, ⟨[B], some addr⟩⟩ ∧
    OSSignalSemaphore Tag extra (some ⟨Tag, name, 0, ⟨[B], some addr⟩⟩) =
      .returned 0 ⟨Tag, name, 1, ⟨[], some addr⟩⟩ [B] ∧
    OSGetSemaphoreCount Tag (some ⟨Tag, name, 1, ⟨[], some addr⟩⟩) =
      .returned 1 ⟨Tag, name, 1, ⟨[], some addr⟩⟩ [] ∧
    OSWaitSemaphore Tag B [afterSignal Tag extra] (some ⟨Tag, name, 0, ⟨[], some addr⟩⟩) =
      .returned 1 ⟨Tag, name, 0, ⟨[], some addr⟩⟩ [] ∧
    OSGetSemaphoreCount Tag (some ⟨Tag, name, 0, ⟨[], some addr⟩⟩) =
      .returned 0 ⟨Tag, name, 0, ⟨[], some addr⟩⟩ [] := by
  refine ⟨?_, ?_, ?_, ?_, ?_, ?_⟩
  · simp [OSWaitSemaphore, OSInitSemaphoreEx, waitLoop, OSInitThreadQueueEx]
  · simp [OSWaitSemaphore, waitLoop, asleepOn, sleepThreadNoLock, ThreadQueue.insert,
      ThreadQueue.insertSorted]
  · simp [OSSignalSemaphore, wakeupThreadNoLock, wrapInt32]
  · simp [OSGetSemaphoreCount]
  · simp [OSWaitSemaphore, waitLoop, asleepOn, sleepThreadNoLock, ThreadQueue.insert,
      ThreadQueue.insertSorted, afterSignal, OSSignalSemaphore, wakeupThreadNoLock,
      wrapInt32]
  · simp [OSGetSemaphoreCount]

/-- C7: when the semaphore pointer is null or the tag differs from `OSSemaphore::Tag`,
each of `OSWaitSemaphore`, `OSTryWaitSemaphore`, `OSSignalSemaphore` and
`OSGetSemaphoreCount` ends in the fatal check failure with the storage (count and wait
queue included) exactly as it was; with a matching tag none of the four ends there, in
any environment and for any choice of the scheduler. -/
theorem semaphore_tag_check (Tag : Nat) (self : OSThread)
    (env : List (OSSemaphore → OSSemaphore)) (extra : Nat)
    (semaphore : Option OSSemaphore) :
    (checkFails Tag semaphore →
      OSWaitSemaphore Tag self env semaphore = .fatal semaphore ∧
      OSTryWaitSemaphore Tag semaphore = .fatal semaphore ∧
      OSSignalSemaphore Tag extra semaphore = .fatal semaphore ∧
      OSGetSemaphoreCount Tag semaphore = .fatal semaphore) ∧
    (¬ checkFails Tag semaphore → ∀ x,
      OSWaitSemaphore Tag self env semaphore ≠ .fatal x ∧
      OSTryWaitSemaphore Tag semaphore ≠ .fatal x ∧
      OSSignalSemaphore Tag extra semaphore ≠ .fatal x ∧
      OSGetSemaphoreCount Tag semaphore ≠ .fatal x) := by
  refine ⟨?_, ?_⟩
  · intro hbad
    cases semaphore with
    | none => simp [OSWaitSemaphore, OSTryWaitSemaphore, OSSignalSemaphore,
        OSGetSemaphoreCount]
    | some sem =>
      have htag : sem.tag ≠ Tag := hbad sem rfl
      simp [OSWaitSemaphore, OSTryWaitSemaphore, OSSignalSemaphore, OSGetSemaphoreCount,
        htag]
  · intro hok x
    cases semaphore with
    | none => exact absurd (fun sem h => by cases h) hok
    | some sem =>
      have htag : sem.tag = Tag := by
        by_contra hne
        apply hok
        intro s hs
        cases hs
        exact hne
      refine ⟨?_, ?_, ?_, ?_⟩
      · have hrun : OSWaitSemaphore Tag self env (some sem) = waitLoop self env sem := by
          simp [OSWaitSemaphore, htag]
        rw [hrun]
        rcases waitLoop_cases self env sem with ⟨k, _, _, _, hres⟩ | ⟨_, hres⟩ <;>
          simp [hres]
      · unfold OSTryWaitSemaphore
        by_cases hpos : 0 < sem.count <;> simp [htag, hpos]
      · simp [OSSignalSemaphore, htag]
      · simp [OSGetSemaphoreCount, htag]

/-- C7 at concrete semaphores: a storage with tag 9 where 7 is expected makes every
function fail and keeps count 3 and the waiter; the same storage with tag 7 does not
make `OSTryWaitSemaphore` fail. -/
theorem semaphore_tag_check_witness :
    OSWaitSemaphore 7 ⟨1, 16⟩ [] (some ⟨9, none, 3, ⟨[⟨2, 16⟩], none⟩⟩) =
        .fatal (some ⟨9, none, 3, ⟨[⟨2, 16⟩], none⟩⟩) ∧
    OSTryWaitSemaphore 7 (some ⟨7, none, 3, ⟨[⟨2, 16⟩], none⟩⟩) ≠ .fatal none := by
  refine ⟨?_, ?_⟩
  · exact ((semaphore_tag_check 7 ⟨1, 16⟩ [] 0 (some ⟨9, none, 3, ⟨[⟨2, 16⟩], none⟩⟩)).1
      (by
        intro sem h
        cases h
        decide)).1
  · exact ((semaphore_tag_check 7 ⟨1, 16⟩ [] 0 (some ⟨7, none, 3, ⟨[⟨2, 16⟩], none⟩⟩)).2
      (by
        intro h
        exact h _ rfl rfl) none).2.1

/-- C8: whatever the storage held before (tag, count, name, wait queue),
`OSInitSemaphoreEx(sem, c, name)` leaves tag `OSSemaphore::Tag`, the given name, count
`c` and an empty wait queue whose parent is the semaphore; `OSGetSemaphoreCount` then
returns exactly `c` and leaves the semaphore as it is; `OSInitSemaphore(sem, c)` gives
the same state with a null name. -/
theorem OSInitSemaphoreEx_resets (Tag addr : Nat) (prior : OSSemaphore) (c : Int)
    (name : Option String) :
    OSInitSemaphoreEx Tag addr prior c name = ⟨Tag, name, c, ⟨[], some addr⟩⟩ ∧
    OSGetSemaphoreCount Tag (some (OSInitSemaphoreEx Tag addr prior c name)) =
      .returned c (OSInitSemaphoreEx Tag addr prior c name) [] ∧
    OSInitSemaphore Tag addr prior c = ⟨Tag, none, c, ⟨[], some addr⟩⟩ ∧
    OSInitSemaphore Tag addr prior c = OSInitSemaphoreEx Tag addr prior c none := by
  refine ⟨rfl, ?_, rfl, rfl⟩
  simp [OSGetSemaphoreCount, OSInitSemaphoreEx]

/-- A wait that returns leaves a count of at least 0, whatever the count was on entry and
whatever the environment did. -/
theorem OSWaitSemaphore_returned_nonneg (Tag : Nat) (self : OSThread)
    (env : List (OSSemaphore → OSSemaphore)) (sem sem1 : OSSemaphore) (v : Int)
    (w : List OSThread)
    (hrun : OSWaitSemaphore Tag self env (some sem) = .returned v sem1 w) :
    0 ≤ sem1.count := by
  unfold OSWaitSemaphore at hrun
  by_cases htag : sem.tag = Tag
  · simp only [htag, if_true] at hrun
    rcases waitLoop_cases self env sem with ⟨k, _, _, hpos, hres⟩ | ⟨_, hres⟩
    · rw [hres] at hrun
      injection hrun with _ hsem _
      rw [← hsem]
      show 0 ≤ (observedAt self env sem k).count - 1
      omega
    · rw [hres] at hrun
      cases hrun
  · simp [htag] at hrun

/-- A try-wait changes the semaphore only by lowering a positive count by one. -/
theorem OSTryWaitSemaphore_returned_count (Tag : Nat) (sem sem1 : OSSemaphore) (v : Int)
    (w : List OSThread) (hrun : OSTryWaitSemaphore Tag (some sem) = .returned v sem1 w) :
    (0 < sem.count ∧ sem1.count = sem.count - 1) ∨ (sem.count ≤ 0 ∧ sem1 = sem) := by
  unfold OSTryWaitSemaphore at hrun
  by_cases htag : sem.tag = Tag
  · by_cases hpos : sem.count > 0
    · simp only [htag, if_true, hpos] at hrun
      injection hrun with _ hsem _
      left
      rw [← hsem]
      exact ⟨hpos, rfl⟩
    · simp only [htag, if_true, hpos, if_false] at hrun
      injection hrun with _ hsem _
      right
      exact ⟨by omega, hsem.symm⟩
  · simp [htag] at hrun

/-- Every call that returns on a count of at least 0, and is not a signal at `INT32_MAX`,
leaves a count of at least 0. -/
theorem SemaphoreCall.run_nonneg (Tag : Nat) (call : SemaphoreCall) (sem sem1 : OSSemaphore)
    (v : Int) (w : List OSThread) (hcount : 0 ≤ sem.count)
    (hover : call.overflows sem = false) (hrun : call.run Tag sem = .returned v sem1 w) :
    0 ≤ sem1.count := by
  cases call with
  | wait self env => exact OSWaitSemaphore_returned_nonneg Tag self env sem sem1 v w hrun
  | tryWait =>
    rcases OSTryWaitSemaphore_returned_count Tag sem sem1 v w hrun with ⟨hpos, h⟩ | ⟨_, h⟩
    · omega
    · rw [h]
      exact hcount
  | signal extra =>
    simp only [SemaphoreCall.overflows, decide_eq_false_iff_not, not_le] at hover
    simp only [SemaphoreCall.run, OSSignalSemaphore] at hrun
    by_cases htag : sem.tag = Tag
    · simp only [htag, if_true] at hrun
      injection hrun with _ hsem _
      rw [← hsem]
      show 0 ≤ wrapInt32 (sem.count + 1)
      unfold wrapInt32
      omega
    · simp [htag] at hrun
  | getCount =>
    simp only [SemaphoreCall.run, OSGetSemaphoreCount] at hrun
    by_cases htag : sem.tag = Tag
    · simp only [htag, if_true] at hrun
      injection hrun with _ hsem _
      rw [← hsem]
      exact hcount
    · simp [htag] at hrun

/-- A call other than a wait returns on a valid semaphore and leaves it valid. -/
theorem SemaphoreCall.run_returns (Tag : Nat) (call : SemaphoreCall) (sem : OSSemaphore)
    (htag : sem.tag = Tag) (hcall : call.isWait = false) :
    ∃ v sem1 w, call.run Tag sem = .returned v sem1 w ∧ sem1.tag = Tag := by
  cases call with
  | wait self env => simp [SemaphoreCall.isWait] at hcall
  | tryWait =>
    by_cases hpos : sem.count > 0
    · exact ⟨sem.count, { sem with count := sem.count - 1 }, [],
        by simp [SemaphoreCall.run, OSTryWaitSemaphore, htag, hpos], htag⟩
    · exact ⟨sem.count, sem, [],
        by simp [SemaphoreCall.run, OSTryWaitSemaphore, htag, hpos], htag⟩
  | signal extra =>
    exact ⟨sem.count,
      { sem with
          count := wrapInt32 (sem.count + 1)
          queue := (wakeupThreadNoLock extra sem.queue).2 },
      (wakeupThreadNoLock extra sem.queue).1,
      by simp [SemaphoreCall.run, OSSignalSemaphore, htag], htag⟩
  | getCount =>
    exact ⟨sem.count, sem, [], by simp [SemaphoreCall.run, OSGetSemaphoreCount, htag], htag⟩

/-- Along a sequence of calls without overflow that starts on a count of at least 0, the
count is at least 0 after every call. -/
theorem semaphoreHistory_nonneg (Tag : Nat) :
    ∀ (calls : List SemaphoreCall) (sem : OSSemaphore), 0 ≤ sem.count →
      withoutOverflow Tag calls sem →
      ∀ s ∈ semaphoreHistory Tag calls sem, 0 ≤ s.count := by
  intro calls
  induction calls with
  | nil =>
    intro sem _ _ s hs
    simp [semaphoreHistory] at hs
  | cons call rest ih =>
    intro sem hcount hrange s hs
    obtain ⟨hover, hrest⟩ := hrange
    cases hrun : call.run Tag sem with
    | returned v sem1 w =>
      rw [hrun] at hrest
      simp only [semaphoreHistory, hrun, List.mem_cons] at hs
      have h1 : 0 ≤ sem1.count :=
        SemaphoreCall.run_nonneg Tag call sem sem1 v w hcount hover hrun
      rcases hs with hs | hs
      · rw [hs]
        exact h1
      · exact ih sem1 h1 hrest s hs
    | blocked b => simp [semaphoreHistory, hrun] at hs
    | fatal f => simp [semaphoreHistory, hrun] at hs

/-- A sequence without waits on a valid semaphore runs to its end. -/
theorem semaphoreHistory_length (Tag : Nat) :
    ∀ (calls : List SemaphoreCall) (sem : OSSemaphore), sem.tag = Tag →
      (∀ call ∈ calls, call.isWait = false) →
      (semaphoreHistory Tag calls sem).length = calls.length := by
  intro calls
  induction calls with
  | nil =>
    intro sem _ _
    rfl
  | cons call rest ih =>
    intro sem htag hcalls
    obtain ⟨v, sem1, w, hrun, htag1⟩ :=
      SemaphoreCall.run_returns Tag call sem htag (hcalls call (List.mem_cons_self _ _))
    simp only [semaphoreHistory, hrun, List.length_cons]
    rw [ih sem1 htag1 (fun c hc => hcalls c (List.mem_cons_of_mem _ hc))]

/-- C22: a semaphore initialised with a count `c ≥ 0` has a count `≥ 0` after every call
of every finite sequence of `OSWaitSemaphore` calls that return (in any environment),
`OSTryWaitSemaphore`, `OSSignalSemaphore` (none made on a count of `INT32_MAX`) and
`OSGetSemaphoreCount` calls; a sequence without waits runs to its end.  No wait drives the
count below zero, whatever it found: a wait that returns leaves a count `≥ 0`; and a
try-wait that leaves a negative count has not changed the semaphore. -/
theorem semaphore_count_nonneg (Tag addr : Nat) (prior : OSSemaphore) (c : Int)
    (name : Option String) (calls : List SemaphoreCall) (hc : 0 ≤ c)
    (hrange : withoutOverflow Tag calls (OSInitSemaphoreEx Tag addr prior c name)) :
    (∀ s ∈ semaphoreHistory Tag calls (OSInitSemaphoreEx Tag addr prior c name),
      0 ≤ s.count) ∧
    ((∀ call ∈ calls, call.isWait = false) →
      (semaphoreHistory Tag calls (OSInitSemaphoreEx Tag addr prior c name)).length =
        calls.length) ∧
    (∀ (self : OSThread) (env : List (OSSemaphore → OSSemaphore)) (sem sem1 : OSSemaphore)
        (v : Int) (w : List OSThread),
      OSWaitSemaphore Tag self env (some sem) = .returned v sem1 w → 0 ≤ sem1.count) ∧
    (∀ (sem sem1 : OSSemaphore) (v : Int) (w : List OSThread),
      OSTryWaitSemaphore Tag (some sem) = .returned v sem1 w →
        sem1.count < 0 → sem1 = sem) := by
  refine ⟨semaphoreHistory_nonneg Tag calls _ hc hrange,
    semaphoreHistory_length Tag calls _ rfl, ?_, ?_⟩
  · intro self env sem sem1 v w hrun
    exact OSWaitSemaphore_returned_nonneg Tag self env sem sem1 v w hrun
  · intro sem sem1 v w hrun hneg
    rcases OSTryWaitSemaphore_returned_count Tag sem sem1 v w hrun with ⟨hpos, h⟩ | ⟨_, h⟩
    · omega
    · exact h

/-- C22 for a semaphore initialised with count 1 over old storage: a wait, a try-wait, a
wait that sleeps until another thread signals, a signal and a count query leave the
counts 0, 0, 0, 1, 1. -/
theorem semaphore_count_nonneg_witness :
    withoutOverflow 7
        [.wait ⟨1, 16⟩ [], .tryWait, .wait ⟨2, 16⟩ [afterSignal 7 0], .signal 0, .getCount]
        (OSInitSemaphoreEx 7 0x1000 ⟨0, none, -5, ⟨[], none⟩⟩ 1 none) ∧
    (semaphoreHistory 7
        [.wait ⟨1, 16⟩ [], .tryWait, .wait ⟨2, 16⟩ [afterSignal 7 0], .signal 0, .getCount]
        (OSInitSemaphoreEx 7 0x1000 ⟨0, none, -5, ⟨[], none⟩⟩ 1 none)).map
      (fun s => s.count) = [0, 0, 0, 1, 1] ∧
    ∀ s ∈ semaphoreHistory 7
        [.wait ⟨1, 16⟩ [], .tryWait, .wait ⟨2, 16⟩ [afterSignal 7 0], .signal 0, .getCount]
        (OSInitSemaphoreEx 7 0x1000 ⟨0, none, -5, ⟨[], none⟩⟩ 1 none), 0 ≤ s.count := by
  have hrange : withoutOverflow 7
      [.wait ⟨1, 16⟩ [], .tryWait, .wait ⟨2, 16⟩ [afterSignal 7 0], .signal 0, .getCount]
      (OSInitSemaphoreEx 7 0x1000 ⟨0, none, -5, ⟨[], none⟩⟩ 1 none) := by
    simp [withoutOverflow, SemaphoreCall.run, SemaphoreCall.overflows, OSInitSemaphoreEx,
      OSInitThreadQueueEx, OSWaitSemaphore, waitLoop, OSTryWaitSemaphore, OSSignalSemaphore,
      OSGetSemaphoreCount, afterSignal, asleepOn, sleepThreadNoLock, ThreadQueue.insert,
      ThreadQueue.insertSorted, wakeupThreadNoLock, wrapInt32]
  refine ⟨hrange, ?_,
    (semaphore_count_nonneg 7 0x1000 ⟨0, none, -5, ⟨[], none⟩⟩ 1 none _ (by decide)
      hrange).1⟩
  simp [semaphoreHistory, SemaphoreCall.run, OSInitSemaphoreEx,
      OSInitThreadQueueEx, OSWaitSemaphore, waitLoop, OSTryWaitSemaphore, OSSignalSemaphore,
      OSGetSemaphoreCount, afterSignal, asleepOn, sleepThreadNoLock, ThreadQueue.insert,
      ThreadQueue.insertSorted, wakeupThreadNoLock, wrapInt32]

/-- C23: for a valid semaphore with count `n < 2 ^ 31 - 1`, `OSSignalSemaphore` returns
`n` and raises the count to `n + 1`; `OSTryWaitSemaphore` called next returns `n + 1`, and
the count after it is `n` again if and only if `0 ≤ n`.  When `n < 0` the value returned,
`n + 1`, is `≤ 0`, the try-wait changes nothing and the count stays `n + 1`. -/
theorem OSSignalSemaphore_then_OSTryWaitSemaphore (Tag : Nat) (extra : Nat)
    (sem : OSSemaphore) (htag : sem.tag = Tag) (hint : isInt32 sem.count)
    (hmax : sem.count < 2147483647) :
    ∃ sem1 woken sem2,
      OSSignalSemaphore Tag extra (some sem) = .returned sem.count sem1 woken ∧
      sem1.count = sem.count + 1 ∧
      OSTryWaitSemaphore Tag (some sem1) = .returned (sem.count + 1) sem2 [] ∧
      (sem2.count = sem.count ↔ 0 ≤ sem.count) ∧
      (sem.count < 0 → sem.count + 1 ≤ 0 ∧ sem2 = sem1 ∧ sem2.count = sem.count + 1) := by
  obtain ⟨hlo, _⟩ := hint
  have hwrap : wrapInt32 (sem.count + 1) = sem.count + 1 := by
    unfold wrapInt32
    omega
  refine ⟨{ sem with
      count := sem.count + 1
      queue := (wakeupThreadNoLock extra sem.queue).2 },
    (wakeupThreadNoLock extra sem.queue).1,
    { sem with
      count := if 0 ≤ sem.count then sem.count else sem.count + 1
      queue := (wakeupThreadNoLock extra sem.queue).2 }, ?_, rfl, ?_, ?_, ?_⟩
  · simp [OSSignalSemaphore, htag, hwrap]
  · by_cases hpos : 0 ≤ sem.count
    · have h1 : sem.count + 1 > 0 := by omega
      simp [OSTryWaitSemaphore, htag, hpos, h1]
    · have h1 : ¬ sem.count + 1 > 0 := by omega
      simp [OSTryWaitSemaphore, htag, hpos, h1]
  · by_cases hpos : 0 ≤ sem.count
    · simp [hpos]
    · simp [hpos]
  · intro hneg
    have hpos : ¬ 0 ≤ sem.count := by omega
    refine ⟨by omega, ?_, ?_⟩
    · simp [hpos]
    · simp [hpos]

/-- C23 at count `-2` with one thread waiting: the signal gives `-1`, the try-wait returns
`-1` and leaves it. -/
theorem OSSignalSemaphore_then_OSTryWaitSemaphore_witness :
    ∃ sem1 woken sem2,
      OSSignalSemaphore 7 0 (some ⟨7, none, -2, ⟨[⟨1, 16⟩], none⟩⟩) =
        .returned (-2) sem1 woken ∧
      sem1.count = -2 + 1 ∧
      OSTryWaitSemaphore 7 (some sem1) = .returned (-2 + 1) sem2 [] ∧
      (sem2.count = -2 ↔ (0 : Int) ≤ -2) ∧
      ((-2 : Int) < 0 → (-2 : Int) + 1 ≤ 0 ∧ sem2 = sem1 ∧ sem2.count = -2 + 1) :=
  OSSignalSemaphore_then_OSTryWaitSemaphore 7 0 ⟨7, none, -2, ⟨[⟨1, 16⟩], none⟩⟩ rfl
    (by decide) (by decide)

/-! ## Thread queue theorems -/

/-- Inserting keeps the queued threads and adds the item. -/
theorem insertSorted_perm (item : OSThread) :
    ∀ l : List OSThread, (ThreadQueue.insertSorted l item).Perm (l ++ [item]) := by
  intro l
  induction l with
  | nil => simp [ThreadQueue.insertSorted]
  | cons t rest ih =>
    by_cases h : threadSortFunc t item = true
    · simp only [ThreadQueue.insertSorted, h, if_true, List.cons_append]
      exact List.Perm.cons t ih
    · simp only [ThreadQueue.insertSorted, h, List.cons_append]
      have : (item :: (t :: rest)).Perm ((t :: rest) ++ [item]) := by
        simpa using (List.perm_append_singleton item (t :: rest)).symm
      simpa using this

/-- Inserting into a queue in ascending priority order leaves it in ascending order. -/
theorem insertSorted_pairwise (item : OSThread) :
    ∀ l : List OSThread, l.Pairwise (fun a b => a.priority ≤ b.priority) →
      (ThreadQueue.insertSorted l item).Pairwise (fun a b => a.priority ≤ b.priority) := by
  intro l
  induction l with
  | nil =>
    intro _
    simp [ThreadQueue.insertSorted]
  | cons t rest ih =>
    intro hl
    rw [List.pairwise_cons] at hl
    by_cases h : threadSortFunc t item = true
    · simp only [ThreadQueue.insertSorted, h, if_true]
      rw [List.pairwise_cons]
      refine ⟨?_, ih hl.2⟩
      intro b hb
      have hb1 : b ∈ rest ++ [item] := (insertSorted_perm item rest).mem_iff.mp hb
      rcases List.mem_append.mp hb1 with hr | hi
      · exact hl.1 b hr
      · have hbi : b = item := by simpa using hi
        subst hbi
        simpa [threadSortFunc] using h
    · have hf : threadSortFunc t item = false := by simpa using h
      simp only [ThreadQueue.insertSorted, hf, Bool.false_eq_true, if_false]
      have hlt : item.priority < t.priority := by
        simpa [threadSortFunc] using h
      rw [List.pairwise_cons]
      refine ⟨?_, List.pairwise_cons.mpr hl⟩
      intro b hb
      rcases List.mem_cons.mp hb with hbt | hbr
      · subst hbt
        omega
      · have := hl.1 b hbr
        omega

/-- Inserting puts the item behind every queued thread of the same priority: the threads
of any one priority, read front to back, are the earlier ones followed by the item. -/
theorem insertSorted_filter (item : OSThread) (p : Int) :
    ∀ l : List OSThread, l.Pairwise (fun a b => a.priority ≤ b.priority) →
      (ThreadQueue.insertSorted l item).filter (fun t => decide (t.priority = p)) =
        (l ++ [item]).filter (fun t => decide (t.priority = p)) := by
  intro l
  induction l with
  | nil =>
    intro _
    simp [ThreadQueue.insertSorted]
  | cons t rest ih =>
    intro hl
    rw [List.pairwise_cons] at hl
    by_cases h : threadSortFunc t item = true
    · simp only [ThreadQueue.insertSorted, h, if_true, List.cons_append, List.filter_cons,
        ih hl.2]
    · have hf : threadSortFunc t item = false := by simpa using h
      simp only [ThreadQueue.insertSorted, hf, Bool.false_eq_true, if_false]
      have hlt : item.priority < t.priority := by
        simpa [threadSortFunc] using h
      by_cases hp : item.priority = p
      · have hnone : (t :: rest).filter (fun x => decide (x.priority = p)) = [] := by
          rw [List.filter_eq_nil_iff]
          intro b hb
          rcases List.mem_cons.mp hb with hbt | hbr
          · subst hbt
            simp
            omega
          · have := hl.1 b hbr
            simp
            omega
        rw [List.filter_append, hnone]
        simp [List.filter_cons, hp] at hnone ⊢
        exact hnone
      · rw [List.filter_append]
        simp [List.filter_cons, hp]

/-- Removing from the front until the queue is empty returns the queued threads, head
first, as soon as the fuel covers the queue length. -/
theorem drain_eq_threads :
    ∀ (fuel : Nat) (queue : OSThreadQueue), queue.threads.length ≤ fuel →
      ThreadQueue.drain fuel queue = queue.threads := by
  intro fuel
  induction fuel with
  | zero =>
    intro queue h
    have : queue.threads = [] := List.length_eq_zero.mp (by omega)
    simp [ThreadQueue.drain, this]
  | succ n ih =>
    intro queue h
    rcases queue with ⟨threads, parent⟩
    cases threads with
    | nil => simp [ThreadQueue.drain, ThreadQueue.popFront]
    | cons t rest =>
      have hlen : rest.length ≤ n := by simpa using h
      simpa [ThreadQueue.drain, ThreadQueue.popFront] using ih ⟨rest, parent⟩ hlen

/-- A run of inserts into an ordered queue: the queue stays ordered, holds the earlier
threads and the inserted ones, and within each priority the earlier threads come first,
followed by the inserted ones in insertion order. -/
theorem insertAll_sorted_stable :
    ∀ (items : List OSThread) (queue : OSThreadQueue),
      queue.threads.Pairwise (fun a b => a.priority ≤ b.priority) →
      (ThreadQueue.insertAll queue items).threads.Pairwise
          (fun a b => a.priority ≤ b.priority) ∧
      (ThreadQueue.insertAll queue items).threads.Perm (queue.threads ++ items) ∧
      (ThreadQueue.insertAll queue items).parent = queue.parent ∧
      ∀ p : Int,
        (ThreadQueue.insertAll queue items).threads.filter
            (fun t => decide (t.priority = p)) =
          (queue.threads ++ items).filter (fun t => decide (t.priority = p)) := by
  intro items
  induction items with
  | nil =>
    intro queue h
    simp [ThreadQueue.insertAll, h]
  | cons item rest ih =>
    intro queue h
    have hstep := insertSorted_pairwise item queue.threads h
    obtain ⟨hsorted, hperm, hparent, hfilter⟩ := ih (ThreadQueue.insert queue item) hstep
    have hunfold : ThreadQueue.insertAll queue (item :: rest) =
        ThreadQueue.insertAll (ThreadQueue.insert queue item) rest := rfl
    rw [hunfold]
    refine ⟨hsorted, ?_, hparent, ?_⟩
    · refine hperm.trans ?_
      have := (insertSorted_perm item queue.threads).append_right rest
      simpa [ThreadQueue.insert] using this
    · intro p
      rw [hfilter p]
      simp only [ThreadQueue.insert, List.filter_append]
      rw [insertSorted_filter item p queue.threads h, List.filter_append]
      by_cases hp : item.priority = p <;> simp [List.filter_cons, hp]

/-- C9: insert any threads, in any order, into an empty `ThreadQueue` and then remove
from the front until it is empty.  The removals yield every inserted thread, in
non-decreasing priority value, and the threads of any one priority come out in the order
in which they were inserted. -/
theorem ThreadQueue_dequeue_order (parent : Option Nat) (items : List OSThread) :
    (ThreadQueue.drain items.length (ThreadQueue.insertAll ⟨[], parent⟩ items)).Pairwise
        (fun a b => a.priority ≤ b.priority) ∧
    (ThreadQueue.drain items.length (ThreadQueue.insertAll ⟨[], parent⟩ items)).Perm items ∧
    ∀ p : Int,
      (ThreadQueue.drain items.length (ThreadQueue.insertAll ⟨[], parent⟩ items)).filter
          (fun t => decide (t.priority = p)) =
        items.filter (fun t => decide (t.priority = p)) := by
  obtain ⟨hsorted, hperm, _, hfilter⟩ :=
    insertAll_sorted_stable items ⟨[], parent⟩ List.Pairwise.nil
  have hlen : (ThreadQueue.insertAll ⟨[], parent⟩ items).threads.length ≤ items.length := by
    have := hperm.length_eq
    simp at this
    omega
  rw [drain_eq_threads _ _ hlen]
  exact ⟨hsorted, by simpa using hperm, by simpa using hfilter⟩

/-! ## Structure layout theorems -/

set_option maxRecDepth 4000 in
/-- C21: with 1-byte packing, 4-byte guest pointers, 1-byte `OSThreadState` and
`OSThreadAttributes`, a 4-byte `OSThreadRequest` and an 8-byte host `Fiber` pointer, the
declared member sequences of `OSContext` and `OSThread` put every member at the offset its
`CHECK_OFFSET` line asserts (among them `OSThread` `tag` at `0x320`, `suspendCounter` at
`0x328`, `priority` at `0x32c`, `queue` at `0x35c`, `joinQueue` at `0x368`,
`alarmCancelled` at `0x578` and `tlsSections` at `0x668`), and the sizes are `0x320` bytes
for `OSContext` and `0x69c` bytes for `OSThread`, as the `CHECK_SIZE` lines assert. -/
theorem OSThread_layout (pack : Nat) (sizes : TypeSizes) (hpack : pack = 1)
    (hptr : sizes.guestPointer = 4) (hstate : sizes.threadState = 1)
    (hattr : sizes.threadAttributes = 1) (hrequest : sizes.threadRequest = 4)
    (hfiber : sizes.hostPointer = 8) :
    checksHold pack (OSContext.members sizes) OSContext.checkOffsets ∧
    structSize pack (OSContext.members sizes) = 0x320 ∧
    OSContext.checkSize = 0x320 ∧
    checksHold pack (OSThread.members pack sizes) OSThread.checkOffsets ∧
    structSize pack (OSThread.members pack sizes) = 0x69c ∧
    OSThread.checkSize = 0x69c ∧
    offsetOf pack (OSThread.members pack sizes) "tag" = some 0x320 ∧
    offsetOf pack (OSThread.members pack sizes) "suspendCounter" = some 0x328 ∧
    offsetOf pack (OSThread.members pack sizes) "priority" = some 0x32c ∧
    offsetOf pack (OSThread.members pack sizes) "queue" = some 0x35c ∧
    offsetOf pack (OSThread.members pack sizes) "joinQueue" = some 0x368 ∧
    offsetOf pack (OSThread.members pack sizes) "alarmCancelled" = some 0x578 ∧
    offsetOf pack (OSThread.members pack sizes) "tlsSections" = some 0x668 := by
  obtain ⟨p, s, a, r, f⟩ := sizes
  simp only at hptr hstate hattr hrequest hfiber
  subst hpack hptr hstate hattr hrequest hfiber
  decide

/-- C21 at the sizes of the emulator's build: the thread identifier, which queue ordering
reads, lies at `0x326` and the whole `OSThread` takes `0x69c` bytes. -/
theorem OSThread_layout_witness :
    offsetOf 1 (OSThread.members 1 ⟨4, 1, 1, 4, 8⟩) "id" = some 0x326 ∧
    structSize 1 (OSThread.members 1 ⟨4, 1, 1, 4, 8⟩) = 0x69c :=
  ⟨(OSThread_layout 1 ⟨4, 1, 1, 4, 8⟩ rfl rfl rfl rfl rfl rfl).2.2.2.1
      ("id", 0x326) (by decide),
    (OSThread_layout 1 ⟨4, 1, 1, 4, 8⟩ rfl rfl rfl rfl rfl rfl).2.2.2.2.1⟩

set_option maxRecDepth 4000 in
/-- The premises of the layout matter: with a 4-byte host pointer the offset asserted for
`mmcr0` fails, and without the packing pragma `sizeof(OSThread)` is `0x6a0`. -/
theorem OSThread_layout_premises :
    offsetOf 1 (OSContext.members ⟨4, 1, 1, 4, 4⟩) "mmcr0" = some 0x314 ∧
    structSize 8 (OSThread.members 8 ⟨4, 1, 1, 4, 8⟩) = 0x6a0 := by
  decide

/-! ## Block heap theorems -/

/-- C10, the code against the claim: on a heap whose only block is free and spans
`[0x1000, 0x2000)`, a request for `0x100` bytes at alignment `0x10` fits at `0x1000`, yet
`MEMAllocFromBlockHeapEx` returns null; and for no heap, size, alignment or fuel does it
return anything but null. -/
theorem MEMAllocFromBlockHeapEx_returns_null (BlockHeapTag : Nat) (ops : AlignOps) :
    alignedFit ((singleFreeBlockHeap BlockHeapTag).blocks 0x50) 0x100 0x10 = some 0x1000 ∧
    MEMAllocFromBlockHeapEx BlockHeapTag ops 1 (singleFreeBlockHeap BlockHeapTag) 0x100 0x10 =
      .returned none ∧
    ∀ (fuel : Nat) (heap : MEMBlockHeap) (size : Nat) (align : Int) (p : Nat),
      MEMAllocFromBlockHeapEx BlockHeapTag ops fuel heap size align ≠ .returned (some p) := by
  refine ⟨?_, ?_, ?_⟩
  · simp [alignedFit, singleFreeBlockHeap]
  · simp [MEMAllocFromBlockHeapEx, singleFreeBlockHeap, allocWalkForward]
  · intro fuel heap size align p
    unfold MEMAllocFromBlockHeapEx
    by_cases htag : heap.header.tag ≠ BlockHeapTag
    · simp [htag]
    · by_cases hsize : size = 0
      · simp [htag, hsize]
      · simp only [htag, hsize, if_false]
        split_ifs <;> simp

/-- C11, the code against the claim: on the heap over the `0x1000` byte region
`[0x1000, 0x2000)` both allocations of `0x100` bytes at alignment `0x10` return null and
leave the single free block as it is, freeing the (null) pointer of the first one changes
nothing, and the allocation of `0x80` bytes with negative alignment returns null, not an
address at the top of the region. -/
theorem MEMAllocFromBlockHeapEx_from_end_returns_null (BlockHeapTag : Nat) (ops : AlignOps) :
    MEMAllocFromBlockHeapEx BlockHeapTag ops 1 (singleFreeBlockHeap BlockHeapTag) 0x100 0x10 =
      .returned none ∧
    MEMFreeToBlockHeap 0x100000000 1 (singleFreeBlockHeap BlockHeapTag) 0 =
      .returned (singleFreeBlockHeap BlockHeapTag) ∧
    MEMAllocFromBlockHeapEx BlockHeapTag ops 1 (singleFreeBlockHeap BlockHeapTag) 0x80 (-0x10) =
      .returned none := by
  refine ⟨?_, ?_, ?_⟩
  · simp [MEMAllocFromBlockHeapEx, singleFreeBlockHeap, allocWalkForward]
  · simp [MEMFreeToBlockHeap, findBlockOwning, mem.untranslate, singleFreeBlockHeap]
  · simp [MEMAllocFromBlockHeapEx, singleFreeBlockHeap, allocWalkBackward]

/-- Two relations that hold along a list hold along it together. -/
theorem chain'_and {α : Type} {R S : α → α → Prop} :
    ∀ {l : List α}, l.Chain' R → l.Chain' S → l.Chain' (fun x y => R x y ∧ S x y)
  | [], _, _ => List.chain'_nil
  | [_], _, _ => List.chain'_singleton _
  | x :: y :: l, h1, h2 => by
    rw [List.chain'_cons] at h1 h2 ⊢
    exact ⟨⟨h1.1, h2.1⟩, chain'_and h1.2 h2.2⟩

/-- The forward walk along contiguous blocks, started at a block that begins at or below
the address, stops at a block that contains the address. -/
theorem searchForward_finds (heap : MEMBlockHeap) (addr : Nat) :
    ∀ (suffix : List Nat) (fuel : Nat),
      suffix.Chain' (fun x y =>
        (heap.blocks x).next = some y ∧ (heap.blocks x).stop = (heap.blocks y).start) →
      (∀ a ∈ suffix.getLast?, addr < (heap.blocks a).stop) →
      (∀ a ∈ suffix.head?, (heap.blocks a).start ≤ addr) →
      suffix ≠ [] → suffix.length ≤ fuel →
      ∃ b ∈ suffix, (heap.blocks b).start ≤ addr ∧ addr < (heap.blocks b).stop ∧
        searchForward heap addr fuel suffix.head? = .returned (some b) := by
  intro suffix
  induction suffix with
  | nil =>
    intro _ _ _ _ h
    exact absurd rfl h
  | cons h rest ih =>
    intro fuel hchain hlast hhead _ hfuel
    obtain ⟨f, rfl⟩ : ∃ f, fuel = f + 1 := ⟨fuel - 1, by simp at hfuel; omega⟩
    have hstart : (heap.blocks h).start ≤ addr := hhead h (by simp)
    by_cases hstop : (heap.blocks h).stop > addr
    · exact ⟨h, by simp, hstart, hstop, by simp [searchForward, hstop]⟩
    · cases rest with
      | nil => exact absurd (hlast h (by simp)) hstop
      | cons y rest2 =>
        rw [List.chain'_cons] at hchain
        obtain ⟨⟨hnext, hadj⟩, hchain2⟩ := hchain
        obtain ⟨b, hb, h1, h2, h3⟩ := ih f hchain2
          (by simpa [List.getLast?_cons_cons] using hlast)
          (by
            intro a ha
            have hay : a = y := by simpa using ha.symm
            subst hay
            omega)
          (by simp)
          (by simp at hfuel ⊢; omega)
        refine ⟨b, List.mem_cons_of_mem _ hb, h1, h2, ?_⟩
        simpa [searchForward, hstop, hnext] using h3

/-- The backward walk, on the block list read from its end: started at a block that ends
above the address, it stops at a block that contains the address. -/
theorem searchBackward_finds (heap : MEMBlockHeap) (addr : Nat) :
    ∀ (rsuffix : List Nat) (fuel : Nat),
      rsuffix.Chain' (fun x y =>
        (heap.blocks x).prev = some y ∧ (heap.blocks y).stop = (heap.blocks x).start) →
      (∀ a ∈ rsuffix.getLast?, (heap.blocks a).start ≤ addr) →
      (∀ a ∈ rsuffix.head?, addr < (heap.blocks a).stop) →
      rsuffix ≠ [] → rsuffix.length ≤ fuel →
      ∃ b ∈ rsuffix, (heap.blocks b).start ≤ addr ∧ addr < (heap.blocks b).stop ∧
        searchBackward heap addr fuel rsuffix.head? = .returned (some b) := by
  intro rsuffix
  induction rsuffix with
  | nil =>
    intro _ _ _ _ h
    exact absurd rfl h
  | cons h rest ih =>
    intro fuel hchain hlast hhead _ hfuel
    obtain ⟨f, rfl⟩ : ∃ f, fuel = f + 1 := ⟨fuel - 1, by simp at hfuel; omega⟩
    have hstop : addr < (heap.blocks h).stop := hhead h (by simp)
    by_cases hstart : (heap.blocks h).start ≤ addr
    · exact ⟨h, by simp, hstart, hstop, by simp [searchBackward, hstart]⟩
    · cases rest with
      | nil => exact absurd (hlast h (by simp)) hstart
      | cons y rest2 =>
        rw [List.chain'_cons] at hchain
        obtain ⟨⟨hprev, hadj⟩, hchain2⟩ := hchain
        obtain ⟨b, hb, h1, h2, h3⟩ := ih f hchain2
          (by simpa [List.getLast?_cons_cons] using hlast)
          (by
            intro a ha
            have hay : a = y := by simpa using ha.symm
            subst hay
            omega)
          (by simp)
          (by simp at hfuel ⊢; omega)
        refine ⟨b, List.mem_cons_of_mem _ hb, h1, h2, ?_⟩
        simpa [searchBackward, hstart, hprev] using h3

/-- In a well-formed heap at most one block of the list contains a given address. -/
theorem WellFormed.owner_unique {heap : MEMBlockHeap} {chain : List Nat}
    (hwf : WellFormed heap chain) (addr : Nat) :
    ∀ b ∈ chain, ∀ c ∈ chain,
      (heap.blocks b).start ≤ addr → addr < (heap.blocks b).stop →
      (heap.blocks c).start ≤ addr → addr < (heap.blocks c).stop → c = b := by
  have hchain : chain.Chain' (fun x y =>
      (heap.blocks x).stop ≤ (heap.blocks y).start ∧
        (heap.blocks y).start ≤ (heap.blocks y).stop) := by
    refine (List.Chain'.iff_mem.mp hwf.adjacent).imp ?_
    intro x y hxy
    exact ⟨le_of_eq hxy.2.2.1, hwf.extent y hxy.2.1⟩
  haveI : IsTrans Nat (fun x y =>
      (heap.blocks x).stop ≤ (heap.blocks y).start ∧
        (heap.blocks y).start ≤ (heap.blocks y).stop) :=
    ⟨fun a b c hab hbc => ⟨by omega, hbc.2⟩⟩
  have hpair := List.chain'_iff_pairwise.mp hchain
  have hsym : chain.Pairwise (fun x y =>
      (heap.blocks x).stop ≤ (heap.blocks y).start ∨
        (heap.blocks y).stop ≤ (heap.blocks x).start) :=
    hpair.imp (fun h => Or.inl h.1)
  intro b hb c hc hb1 hb2 hc1 hc2
  by_contra hne
  have := hsym.forall (fun x y h => h.symm) hc hb hne
  omega

/-- In a well-formed heap the forward search from `firstBlock` and the backward search
from `lastBlock` return the same block for an address in `[dataStart, dataEnd)`, and that
block contains the address. -/
theorem WellFormed.searches_agree {heap : MEMBlockHeap} {chain : List Nat}
    (hwf : WellFormed heap chain) (fuel a : Nat) (hfuel : chain.length ≤ fuel)
    (hlo : heap.header.dataStart ≤ a) (hhi : a < heap.header.dataEnd) :
    ∃ b ∈ chain, (heap.blocks b).start ≤ a ∧ a < (heap.blocks b).stop ∧
      searchForward heap a fuel heap.firstBlock = .returned (some b) ∧
      searchBackward heap a fuel heap.lastBlock = .returned (some b) := by
  have hfwdChain : chain.Chain' (fun x y =>
      (heap.blocks x).next = some y ∧ (heap.blocks x).stop = (heap.blocks y).start) :=
    (chain'_and hwf.links hwf.adjacent).imp (fun _ _ h => ⟨h.1.1, h.2.1⟩)
  have hbwdChain : chain.reverse.Chain' (fun x y =>
      (heap.blocks x).prev = some y ∧ (heap.blocks y).stop = (heap.blocks x).start) := by
    rw [List.chain'_reverse]
    exact (chain'_and hwf.links hwf.adjacent).imp (fun _ _ h => ⟨h.1.2, h.2.1⟩)
  obtain ⟨b, hb, hb1, hb2, hfwd⟩ := searchForward_finds heap a chain fuel hfwdChain
    (fun x hx => by rw [hwf.endsAt x hx]; exact hhi)
    (fun x hx => by rw [hwf.startsAt x hx]; exact hlo)
    hwf.nonempty hfuel
  obtain ⟨c, hc, hc1, hc2, hbwd⟩ := searchBackward_finds heap a chain.reverse fuel
    hbwdChain
    (fun x hx => by
      rw [List.getLast?_reverse] at hx
      rw [hwf.startsAt x hx]
      exact hlo)
    (fun x hx => by
      rw [List.head?_reverse] at hx
      rw [hwf.endsAt x hx]
      exact hhi)
    (by simpa using hwf.nonempty) (by simpa using hfuel)
  have hcb : c = b := hwf.owner_unique a b hb c (List.mem_reverse.mp hc) hb1 hb2 hc1 hc2
  subst hcb
  rw [← hwf.first] at hfwd
  rw [List.head?_reverse, ← hwf.last] at hbwd
  exact ⟨c, hb, hb1, hb2, hfwd, hbwd⟩

/-- In a well-formed heap `findBlockOwning` returns a block of the list that contains the
guest address of the pointer, when that address lies in `[dataStart, dataEnd)`. -/
theorem WellFormed.findBlockOwning_in_range {heap : MEMBlockHeap} {chain : List Nat}
    (hwf : WellFormed heap chain) (base fuel data a : Nat)
    (hdata : mem.untranslate base data = some a) (hfuel : chain.length ≤ fuel)
    (hlo : heap.header.dataStart ≤ a) (hhi : a < heap.header.dataEnd) :
    ∃ b ∈ chain, (heap.blocks b).start ≤ a ∧ a < (heap.blocks b).stop ∧
      findBlockOwning base fuel heap data = .returned (some b) := by
  obtain ⟨b, hb, hb1, hb2, hfwd, hbwd⟩ := hwf.searches_agree fuel a hfuel hlo hhi
  refine ⟨b, hb, hb1, hb2, ?_⟩
  unfold findBlockOwning
  rw [hdata]
  have h1 : ¬ a < heap.header.dataStart := by omega
  have h2 : ¬ a ≥ heap.header.dataEnd := by omega
  simp only [h1, h2, if_false]
  split_ifs
  · exact hfwd
  · exact hbwd

/-- The heap of three adjacent blocks is well formed, whichever blocks are free. -/
theorem threeBlockHeap_wellFormed (freeA freeB freeC : Bool) :
    WellFormed (threeBlockHeap freeA freeB freeC) [0x50, 0x64, 0x78] where
  nodup := by decide
  first := rfl
  last := rfl
  headPrev := by simp [threeBlockHeap]
  lastNext := by simp [threeBlockHeap]
  links := by simp [threeBlockHeap]
  nonempty := by simp
  startsAt := by simp [threeBlockHeap]
  endsAt := by simp [threeBlockHeap]
  adjacent := by simp [threeBlockHeap]
  extent := by simp [threeBlockHeap]

/-- C17: in a well-formed heap, for a pointer that `untranslate` maps to the guest
address `a`, and fuel covering the block list: `findBlockOwning` returns null when `a` is
below `dataStart` or at or after `dataEnd`; otherwise it returns a block of the list with
`start ≤ a < end`, the only such block, and the forward search from `firstBlock` and the
backward search from `lastBlock` both return that block. -/
theorem findBlockOwning_returns_owner (base fuel : Nat) (heap : MEMBlockHeap)
    (chain : List Nat) (data a : Nat) (hwf : WellFormed heap chain)
    (hdata : mem.untranslate base data = some a) (hfuel : chain.length ≤ fuel) :
    ((a < heap.header.dataStart ∨ heap.header.dataEnd ≤ a) →
      findBlockOwning base fuel heap data = .returned none) ∧
    (heap.header.dataStart ≤ a → a < heap.header.dataEnd →
      ∃ b ∈ chain, (heap.blocks b).start ≤ a ∧ a < (heap.blocks b).stop ∧
        (∀ c ∈ chain, (heap.blocks c).start ≤ a → a < (heap.blocks c).stop → c = b) ∧
        findBlockOwning base fuel heap data = .returned (some b) ∧
        searchForward heap a fuel heap.firstBlock = .returned (some b) ∧
        searchBackward heap a fuel heap.lastBlock = .returned (some b)) := by
  refine ⟨?_, ?_⟩
  · intro hout
    unfold findBlockOwning
    rw [hdata]
    rcases hout with h | h
    · simp [h]
    · have : ¬ a < heap.header.dataEnd := by omega
      by_cases hlow : a < heap.header.dataStart <;> simp [hlow, h]
  · intro hlo hhi
    obtain ⟨b, hb, hb1, hb2, hfwd, hbwd⟩ := hwf.searches_agree fuel a hfuel hlo hhi
    obtain ⟨c, hc, hc1, hc2, hfind⟩ :=
      hwf.findBlockOwning_in_range base fuel data a hdata hfuel hlo hhi
    have hcb : c = b := hwf.owner_unique a b hb c hc hb1 hb2 hc1 hc2
    subst hcb
    refine ⟨c, hb, hb1, hb2, ?_, hfind, hfwd, hbwd⟩
    intro d hd hd1 hd2
    exact hwf.owner_unique a c hb d hd hb1 hb2 hd1 hd2

/-- C17 on the heap of three blocks, guest memory mapped at `0x100000000`: the pointer to
guest address `0x1150` is nearer the start, `0x1250` nearer the end; each is found in the
one block that contains it. -/
theorem findBlockOwning_returns_owner_witness :
    (∃ b ∈ [0x50, 0x64, 0x78],
      ((threeBlockHeap true false true).blocks b).start ≤ 0x1150 ∧
      findBlockOwning 0x100000000 3 (threeBlockHeap true false true) 0x100001150 =
        .returned (some b)) ∧
    findBlockOwning 0x100000000 3 (threeBlockHeap true false true) 0x100001300 =
      .returned none := by
  refine ⟨?_, ?_⟩
  · obtain ⟨b, hb, hb1, _, _, hfind, _, _⟩ :=
      (findBlockOwning_returns_owner 0x100000000 3 (threeBlockHeap true false true)
        [0x50, 0x64, 0x78] 0x100001150 0x1150 (threeBlockHeap_wellFormed true false true)
        (by simp [mem.untranslate, mem.hostWordSize]) (by simp)).2
        (by simp [threeBlockHeap]) (by simp [threeBlockHeap])
    exact ⟨b, hb, hb1, hfind⟩
  · exact (findBlockOwning_returns_owner 0x100000000 3 (threeBlockHeap true false true)
      [0x50, 0x64, 0x78] 0x100001300 0x1300 (threeBlockHeap_wellFormed true false true)
      (by simp [mem.untranslate, mem.hostWordSize]) (by simp)).1
      (Or.inr (by simp [threeBlockHeap]))

/-- A pointer that `untranslate` accepts is null with guest address 0, or lies above the
base and is at least as large as its guest address. -/
theorem untranslate_le {base data a : Nat} (hdata : mem.untranslate base data = some a) :
    (data = 0 ∧ a = 0) ∨ (data ≠ 0 ∧ a ≤ data) := by
  unfold mem.untranslate at hdata
  by_cases h0 : data = 0
  · left
    simp [h0] at hdata
    exact ⟨h0, hdata.symm⟩
  · right
    refine ⟨h0, ?_⟩
    by_cases h1 : data > base
    · by_cases h2 : data ≤ (base + 0xFFFFFFFF) % mem.hostWordSize
      · simp only [h0, h1, h2, if_false, not_true_eq_false, Option.some.injEq] at hdata
        have := Nat.mod_le (data - base) 4294967296
        omega
      · simp [h0, h1, h2] at hdata
    · simp [h0, h1] at hdata

/-- The pointer that `translate` makes of a 32-bit guest address is mapped back to that
address. -/
theorem untranslate_translate_eq (base a : Nat) (hfit : mem.MappedBase base)
    (ha : a < 4294967296) : mem.untranslate base (mem.translate base a) = some a := by
  unfold mem.MappedBase mem.hostWordSize at hfit
  by_cases h0 : a = 0
  · simp [mem.translate, mem.untranslate, h0]
  · have hmod : (base + a) % mem.hostWordSize = base + a := by
      apply Nat.mod_eq_of_lt
      unfold mem.hostWordSize
      omega
    have hmax : (base + 0xFFFFFFFF) % mem.hostWordSize = base + 0xFFFFFFFF := by
      apply Nat.mod_eq_of_lt
      unfold mem.hostWordSize
      omega
    have h1 : base + a ≠ 0 := by omega
    have h2 : base + a > base := by omega
    have h3 : base + a ≤ base + 0xFFFFFFFF := by omega
    have h4 : (base + a - base) % 4294967296 = a := by
      rw [Nat.add_sub_cancel_left]
      exact Nat.mod_eq_of_lt ha
    simp only [mem.translate, h0, if_false, hmod, mem.untranslate, h1, hmax, h2, h3, h4,
      not_true_eq_false]

/-- Where `mem::base()` is a multiple of `2 ^ 32`, the guest address of a pointer is the
pointer converted to 32 bits. -/
theorem untranslate_aligned_base {base data a : Nat} (hbase : base % 4294967296 = 0)
    (hdata : mem.untranslate base data = some a) : a = data % 4294967296 := by
  unfold mem.untranslate at hdata
  by_cases h0 : data = 0
  · simp only [h0, if_true, Option.some.injEq] at hdata
    omega
  · by_cases h1 : data > base
    · by_cases h2 : data ≤ (base + 0xFFFFFFFF) % mem.hostWordSize
      · simp only [h0, h1, h2, if_false, not_true_eq_false, Option.some.injEq] at hdata
        omega
      · simp [h0, h1, h2] at hdata
    · simp [h0, h1] at hdata

/-- A pointer whose guest address lies outside the data range, or inside a block that is
free, or inside a block but not at its start, is ignored by `MEMFreeToBlockHeap`. -/
theorem WellFormed.free_ignored {heap : MEMBlockHeap} {chain : List Nat}
    (hwf : WellFormed heap chain) (base fuel data a : Nat)
    (hdata : mem.untranslate base data = some a) (hfuel : chain.length ≤ fuel)
    (hbad : a < heap.header.dataStart ∨ heap.header.dataEnd ≤ a ∨
      ∃ b ∈ chain, (heap.blocks b).start ≤ a ∧ a < (heap.blocks b).stop ∧
        ((heap.blocks b).isFree = true ∨ a ≠ (heap.blocks b).start)) :
    MEMFreeToBlockHeap base fuel heap data = .returned heap := by
  by_cases hlo : a < heap.header.dataStart
  · simp [MEMFreeToBlockHeap, blockStartDiffers, findBlockOwning, hdata, hlo]
  · by_cases hhi : heap.header.dataEnd ≤ a
    · simp [MEMFreeToBlockHeap, blockStartDiffers, findBlockOwning, hdata, hlo, hhi]
    · obtain ⟨c, hc, hc1, hc2, hfind⟩ :=
        hwf.findBlockOwning_in_range base fuel data a hdata hfuel (by omega) (by omega)
      rcases hbad with h | h | ⟨b, hb, hb1, hb2, hcase⟩
      · exact absurd h hlo
      · exact absurd h hhi
      · have hcb : c = b := hwf.owner_unique a b hb c hc hb1 hb2 hc1 hc2
        subst hcb
        unfold MEMFreeToBlockHeap
        rw [hfind]
        rcases hcase with hfree | hmid
        · simp [hfree]
        · have hne : (heap.blocks c).start ≠ a := fun h => hmid h.symm
          by_cases hfree : (heap.blocks c).isFree = true <;>
            simp [hfree, blockStartDiffers, hdata, hne]

/-- C12: in a well-formed heap, with fuel covering the block list, every 32-bit guest
address that is outside `[dataStart, dataEnd)`, or lies in a block that is already free,
or lies in an allocated block but is not its start, passed as a host pointer to
`MEMFreeToBlockHeap`, makes it return without a failed check and with the heap exactly as
it was: descriptors, `firstBlock`, `lastBlock`, `firstFreeBlock` and `numFreeBlocks`. -/
theorem MEMFreeToBlockHeap_ignores (base fuel : Nat) (heap : MEMBlockHeap)
    (chain : List Nat) (a : Nat) (hfit : mem.MappedBase base) (hwf : WellFormed heap chain)
    (hfuel : chain.length ≤ fuel) (ha : a < 4294967296)
    (hbad : a < heap.header.dataStart ∨ heap.header.dataEnd ≤ a ∨
      ∃ b ∈ chain, (heap.blocks b).start ≤ a ∧ a < (heap.blocks b).stop ∧
        ((heap.blocks b).isFree = true ∨ a ≠ (heap.blocks b).start)) :
    MEMFreeToBlockHeap base fuel heap (mem.translate base a) = .returned heap ∧
    ∀ heap1, MEMFreeToBlockHeap base fuel heap (mem.translate base a) = .returned heap1 →
      heap1.blocks = heap.blocks ∧ heap1.firstBlock = heap.firstBlock ∧
      heap1.lastBlock = heap.lastBlock ∧ heap1.firstFreeBlock = heap.firstFreeBlock ∧
      heap1.numFreeBlocks = heap.numFreeBlocks := by
  have hdata := untranslate_translate_eq base a hfit ha
  have hres := hwf.free_ignored base fuel (mem.translate base a) a hdata hfuel hbad
  refine ⟨hres, ?_⟩
  intro heap1 h1
  rw [hres] at h1
  injection h1 with h1
  subst h1
  exact ⟨rfl, rfl, rfl, rfl, rfl⟩

/-- C12 on the heap of three blocks, A and C free and B allocated, guest memory mapped at
`0x100000000`: the pointers to `0x800` (outside), `0x1010` (inside free A) and `0x1110`
(inside B, not its start) are all ignored. -/
theorem MEMFreeToBlockHeap_ignores_witness :
    MEMFreeToBlockHeap 0x100000000 3 (threeBlockHeap true false true)
        (mem.translate 0x100000000 0x800) = .returned (threeBlockHeap true false true) ∧
    MEMFreeToBlockHeap 0x100000000 3 (threeBlockHeap true false true)
        (mem.translate 0x100000000 0x1010) = .returned (threeBlockHeap true false true) ∧
    MEMFreeToBlockHeap 0x100000000 3 (threeBlockHeap true false true)
        (mem.translate 0x100000000 0x1110) = .returned (threeBlockHeap true false true) := by
  refine ⟨?_, ?_, ?_⟩
  · exact (MEMFreeToBlockHeap_ignores 0x100000000 3 (threeBlockHeap true false true)
      [0x50, 0x64, 0x78] 0x800 (by decide) (threeBlockHeap_wellFormed true false true)
      (by simp) (by decide) (Or.inl (by simp [threeBlockHeap]))).1
  · exact (MEMFreeToBlockHeap_ignores 0x100000000 3 (threeBlockHeap true false true)
      [0x50, 0x64, 0x78] 0x1010 (by decide) (threeBlockHeap_wellFormed true false true)
      (by simp) (by decide)
      (Or.inr (Or.inr ⟨0x50, by simp, by simp [threeBlockHeap]⟩))).1
  · exact (MEMFreeToBlockHeap_ignores 0x100000000 3 (threeBlockHeap true false true)
      [0x50, 0x64, 0x78] 0x1110 (by decide) (threeBlockHeap_wellFormed true false true)
      (by simp) (by decide)
      (Or.inr (Or.inr ⟨0x64, by simp, by simp [threeBlockHeap]⟩))).1

/-- The descriptor `blocks[i]` of a region at guest address `t`, seen from the guest
address of `blocks`. -/
theorem trackingBlock_zero_add (t i : Nat) :
    trackingBlock t 0 + 0x14 * i = trackingBlock t i := by
  simp [trackingBlock]

/-- The host pointer to a descriptor of a tracking region in guest memory has the guest
address of that descriptor. -/
theorem untranslate_trackingBlockPtr (base t i : Nat) (hfit : mem.MappedBase base)
    (hin : trackingBlock t i ≤ 0xFFFFFFFF) :
    mem.untranslate base (trackingBlockPtr (base + t) i) = some (trackingBlock t i) := by
  have hne : trackingBlock t i ≠ 0 := by
    unfold trackingBlock
    omega
  have hptr : trackingBlockPtr (base + t) i = mem.translate base (trackingBlock t i) := by
    unfold trackingBlockPtr mem.translate trackingBlock
    have h0 : ¬ t + 0x10 + 0x14 * i = 0 := by omega
    rw [if_neg h0]
    congr 1
    omega
  rw [hptr]
  exact untranslate_translate_eq base _ hfit (by omega)

/-- The host pointer to a descriptor behind the top of guest memory is not accepted. -/
theorem untranslate_trackingBlockPtr_outside (base t i : Nat) (hfit : mem.MappedBase base)
    (hout : 0xFFFFFFFF < trackingBlock t i)
    (hhost : base + trackingBlock t i < mem.hostWordSize) :
    mem.untranslate base (trackingBlockPtr (base + t) i) = none := by
  have hptr : trackingBlockPtr (base + t) i = base + trackingBlock t i := by
    unfold trackingBlockPtr
    have : base + t + 0x10 + 0x14 * i = base + trackingBlock t i := by
      unfold trackingBlock
      omega
    rw [this]
    exact Nat.mod_eq_of_lt hhost
  have hmax : (base + 0xFFFFFFFF) % mem.hostWordSize = base + 0xFFFFFFFF :=
    Nat.mod_eq_of_lt hfit
  rw [hptr]
  unfold mem.untranslate
  rw [hmax]
  have h0 : ¬ base + trackingBlock t i = 0 := by omega
  have h1 : base + trackingBlock t i > base := by omega
  have h2 : ¬ base + trackingBlock t i ≤ base + 0xFFFFFFFF := by omega
  simp only [h0, h1, h2, if_false, not_true_eq_false, not_false_eq_true, if_true]

/-- The loop of `MEMAddBlockHeapTracking` over descriptors that all lie in guest memory:
it returns, every descriptor passed has a null `prev` and the descriptor behind it as
`next`, and nothing else is written. -/
theorem linkTrackingBlocks_effect (base t : Nat) (hfit : mem.MappedBase base) :
    ∀ (remaining i : Nat) (heap : MEMBlockHeap),
      trackingBlock t (i + remaining) ≤ 0xFFFFFFFF →
      ∃ linked,
        linkTrackingBlocks base (base + t) (trackingBlock t 0) remaining i heap =
          .returned linked ∧
        (∀ j, i ≤ j → j < i + remaining →
          (linked.blocks (trackingBlock t j)).next = some (trackingBlock t (j + 1)) ∧
          (linked.blocks (trackingBlock t j)).prev = none) ∧
        (∀ d, (∀ j, i ≤ j → j < i + remaining → trackingBlock t j ≠ d) →
          linked.blocks d = heap.blocks d) ∧
        linked.firstFreeBlock = heap.firstFreeBlock ∧
        linked.numFreeBlocks = heap.numFreeBlocks ∧
        linked.firstBlock = heap.firstBlock ∧ linked.lastBlock = heap.lastBlock ∧
        linked.header = heap.header := by
  intro remaining
  induction remaining with
  | zero =>
    intro i heap _
    refine ⟨heap, rfl, ?_, ?_, rfl, rfl, rfl, rfl, rfl⟩
    · intro j h1 h2
      omega
    · intro d _
      rfl
  | succ remaining ih =>
    intro i heap hin
    have hin1 : trackingBlock t (i + 1) ≤ 0xFFFFFFFF := by
      unfold trackingBlock at hin ⊢
      omega
    have hnext := untranslate_trackingBlockPtr base t (i + 1) hfit hin1
    have hne : trackingBlock t (i + 1) ≠ 0 := by
      unfold trackingBlock
      omega
    obtain ⟨linked, hrun, h1, h2, h3, h4, h5, h6, h7⟩ :=
      ih (i + 1)
        (writeBlock heap (trackingBlock t i)
          (fun b => { b with prev := none, next := some (trackingBlock t (i + 1)) }))
        (by
          have : i + 1 + remaining = i + (remaining + 1) := by omega
          rw [this]
          exact hin)
    refine ⟨linked, ?_, ?_, ?_, h3, h4, h5, h6, h7⟩
    · rw [linkTrackingBlocks, hnext]
      simp only [bePtr, if_neg hne, trackingBlock_zero_add]
      exact hrun
    · intro j hj1 hj2
      by_cases hji : j = i
      · subst hji
        have hfar : ∀ k, j + 1 ≤ k → k < j + 1 + remaining →
            trackingBlock t k ≠ trackingBlock t j := by
          intro k hk _
          unfold trackingBlock
          omega
        rw [h2 _ hfar]
        simp [writeBlock]
      · exact h1 j (by omega) (by omega)
    · intro d hd
      rw [h2 d (fun j hj1 hj2 => hd j (by omega) (by omega))]
      have hne : d ≠ trackingBlock t i := fun h => hd i (le_refl _) (by omega) h.symm
      simp [writeBlock, hne]

/-- The loop of `MEMAddBlockHeapTracking` fails a check as soon as the pointer to a
descriptor it is to store is not accepted by `untranslate`. -/
theorem linkTrackingBlocks_fatal (base tracking first : Nat) :
    ∀ (remaining i : Nat) (heap : MEMBlockHeap) (k : Nat), k < remaining →
      mem.untranslate base (trackingBlockPtr tracking (i + k + 1)) = none →
      linkTrackingBlocks base tracking first remaining i heap = .fatal := by
  intro remaining
  induction remaining with
  | zero =>
    intro i heap k hk _
    omega
  | succ remaining ih =>
    intro i heap k hk hnone
    rw [linkTrackingBlocks]
    cases hnext : mem.untranslate base (trackingBlockPtr tracking (i + 1)) with
    | none => rfl
    | some next =>
      have hk0 : k ≠ 0 := by
        intro h
        rw [h] at hnone
        rw [hnone] at hnext
        cases hnext
      simp only []
      apply ih (i + 1) _ (k - 1) (by omega)
      have : i + 1 + (k - 1) + 1 = i + k + 1 := by omega
      rw [this]
      exact hnone

/-- Descriptors chained through `next` in index order, the last one pointing to `old`,
are pushed in front of `old`. -/
theorem pushedOnto_tracking (blocks : Nat → MEMBlockHeapBlock) (tracking : Nat)
    (old : Option Nat) (n : Nat)
    (hnext : ∀ i, i + 1 < n →
      (blocks (trackingBlock tracking i)).next = some (trackingBlock tracking (i + 1)))
    (hlast : (blocks (trackingBlock tracking (n - 1))).next = old) :
    ∀ (len k : Nat), k + len = n → 1 ≤ len →
      PushedOnto blocks (some (trackingBlock tracking k))
        ((List.range' k len).map (trackingBlock tracking)) old := by
  intro len
  induction len with
  | zero =>
    intro k _ h
    omega
  | succ len ih =>
    intro k hk _
    simp only [List.range', List.map_cons, PushedOnto, true_and]
    by_cases hlen : len = 0
    · subst hlen
      simp only [List.range', List.map_nil, PushedOnto]
      have : k = n - 1 := by omega
      rw [this]
      exact hlast
    · rw [hnext k (by omega)]
      exact ih (k + 1) (by omega) (by omega)

/-- What `MEMAddBlockHeapTracking` does with a region of `0x24` bytes or more that lies in
guest memory, at guest address `t`: it returns, the block count is `(size - 0x10) / 0x14`,
the descriptors of the region are pushed, in index order, in front of the old
`firstFreeBlock` list, and `numFreeBlocks` grows by the address of the first descriptor,
modulo `2 ^ 32`. -/
theorem MEMAddBlockHeapTracking_effect (base : Nat) (heap : MEMBlockHeap) (t size : Nat)
    (hfit : mem.MappedBase base) (hsize : 0x24 ≤ size) (hin : t + size ≤ 0xFFFFFFFF) :
    ∃ heap1 track,
      MEMAddBlockHeapTracking base heap (base + t) size = .returned (heap1, track) ∧
      track.blockCount = (size - 0x10) / 0x14 ∧
      track.blocks = some (trackingBlock t 0) ∧
      PushedOnto heap1.blocks heap1.firstFreeBlock
        ((List.range ((size - 0x10) / 0x14)).map (trackingBlock t))
        heap.firstFreeBlock ∧
      (∀ i, i < (size - 0x10) / 0x14 →
        (heap1.blocks (trackingBlock t i)).prev = none) ∧
      heap1.numFreeBlocks = (heap.numFreeBlocks + (t + 0x10)) % 4294967296 := by
  have hcount : trackingBlockCount size = (size - 0x10) / 0x14 := by
    unfold trackingBlockCount
    rw [if_pos (by omega)]
  have hpos : 1 ≤ (size - 0x10) / 0x14 := by omega
  have hzero : ¬ (size - 0x10) / 0x14 = 0 := by omega
  have hfirst := untranslate_trackingBlockPtr base t 0 hfit
    (by unfold trackingBlock; omega)
  have hfirst0 : trackingBlock t 0 ≠ 0 := by
    unfold trackingBlock
    omega
  obtain ⟨linked, hrun, h1, _, h3, h4, _, _, _⟩ :=
    linkTrackingBlocks_effect base t hfit ((size - 0x10) / 0x14) 0 heap
      (by unfold trackingBlock; omega)
  have hinj : ∀ i, i ≠ (size - 0x10) / 0x14 - 1 →
      trackingBlock t i ≠ trackingBlock t ((size - 0x10) / 0x14 - 1) := by
    intro i hi
    unfold trackingBlock
    omega
  refine ⟨(insertTrackingBlocks linked (trackingBlock t 0) ((size - 0x10) / 0x14)
      { blockCount := (size - 0x10) / 0x14 % 4294967296,
        blocks := bePtr (trackingBlock t 0) }).1,
    { blockCount := (size - 0x10) / 0x14 % 4294967296,
      blocks := bePtr (trackingBlock t 0) }, ?_, ?_, ?_, ?_, ?_, ?_⟩
  · unfold MEMAddBlockHeapTracking
    rw [hfirst]
    simp only [hcount, hrun]
    simp [insertTrackingBlocks, hzero]
  · exact Nat.mod_eq_of_lt (by omega)
  · simp [bePtr, hfirst0]
  · rw [List.range_eq_range']
    have hff : (insertTrackingBlocks linked (trackingBlock t 0) ((size - 0x10) / 0x14)
        { blockCount := (size - 0x10) / 0x14 % 4294967296,
          blocks := bePtr (trackingBlock t 0) }).1.firstFreeBlock =
          some (trackingBlock t 0) := by
      simp [insertTrackingBlocks, bePtr, hfirst0]
    rw [hff]
    refine pushedOnto_tracking _ t heap.firstFreeBlock ((size - 0x10) / 0x14) ?_ ?_
      ((size - 0x10) / 0x14) 0 (by omega) hpos
    · intro i hi
      simp only [insertTrackingBlocks, if_neg hzero, writeBlock, trackingBlock_zero_add,
        if_neg (hinj i (by omega))]
      exact (h1 i (by omega) (by omega)).1
    · simp only [insertTrackingBlocks, if_neg hzero, writeBlock, trackingBlock_zero_add,
        if_true]
      exact h3
  · intro i hi
    simp only [insertTrackingBlocks, if_neg hzero, writeBlock, trackingBlock_zero_add]
    split_ifs with h
    · rw [← h]
      exact (h1 i (by omega) (by omega)).2
    · exact (h1 i (by omega) (by omega)).2
  · simp only [insertTrackingBlocks, if_neg hzero, writeBlock, h4, trackingBlock]

/-- With a tracking region of `0x10` bytes or more that lies in guest memory,
`MEMAddBlockHeapTracking` returns, and a descriptor whose bytes lie outside the region, the
header and the ends of the block list are as before. -/
theorem MEMAddBlockHeapTracking_keeps (base : Nat) (heap : MEMBlockHeap) (t size d : Nat)
    (hfit : mem.MappedBase base) (hsize : 0x10 ≤ size) (hin : t + size ≤ 0xFFFFFFFF)
    (hapart : d + 0x14 ≤ t ∨ t + size ≤ d) :
    ∃ heap1 track,
      MEMAddBlockHeapTracking base heap (base + t) size = .returned (heap1, track) ∧
      heap1.blocks d = heap.blocks d ∧ heap1.header = heap.header ∧
      heap1.firstBlock = heap.firstBlock ∧ heap1.lastBlock = heap.lastBlock := by
  have hcount : trackingBlockCount size = (size - 0x10) / 0x14 := by
    unfold trackingBlockCount
    rw [if_pos (by omega)]
  have hfirst := untranslate_trackingBlockPtr base t 0 hfit
    (by unfold trackingBlock; omega)
  obtain ⟨linked, hrun, _, h2, _, _, h5, h6, h7⟩ :=
    linkTrackingBlocks_effect base t hfit ((size - 0x10) / 0x14) 0 heap
      (by unfold trackingBlock; omega)
  have hne : ∀ i, i < (size - 0x10) / 0x14 → trackingBlock t i ≠ d := by
    intro i hi
    unfold trackingBlock
    omega
  refine ⟨(insertTrackingBlocks linked (trackingBlock t 0) ((size - 0x10) / 0x14)
      { blockCount := (size - 0x10) / 0x14 % 4294967296,
        blocks := bePtr (trackingBlock t 0) }).1,
    (insertTrackingBlocks linked (trackingBlock t 0) ((size - 0x10) / 0x14)
      { blockCount := (size - 0x10) / 0x14 % 4294967296,
        blocks := bePtr (trackingBlock t 0) }).2, ?_, ?_, ?_, ?_, ?_⟩
  · unfold MEMAddBlockHeapTracking
    rw [hfirst]
    simp only [hcount, hrun]
  · rw [← h2 d (fun j _ hj => hne j (by omega))]
    by_cases hzero : (size - 0x10) / 0x14 = 0
    · simp [insertTrackingBlocks, hzero]
    · have hlast : d ≠ trackingBlock t ((size - 0x10) / 0x14 - 1) :=
        fun h => hne _ (by omega) h.symm
      simp [insertTrackingBlocks, hzero, writeBlock, trackingBlock_zero_add, hlast]
  · rw [← h7]
    by_cases hzero : (size - 0x10) / 0x14 = 0 <;> simp [insertTrackingBlocks, hzero, writeBlock]
  · rw [← h5]
    by_cases hzero : (size - 0x10) / 0x14 = 0 <;> simp [insertTrackingBlocks, hzero, writeBlock]
  · rw [← h6]
    by_cases hzero : (size - 0x10) / 0x14 = 0 <;> simp [insertTrackingBlocks, hzero, writeBlock]

/-- A tracking region below `0x10` bytes: the block count wraps around, and the loop fails
the check of `untranslate` when the descriptors it links leave guest memory. -/
theorem MEMAddBlockHeapTracking_small_region (base : Nat) (heap : MEMBlockHeap)
    (t size : Nat) (hfit : mem.MappedBase base) (hsize : size < 0x10)
    (hin : t ≤ 0xFFFFFFFF) (hhost : base + 0x1600000000 ≤ mem.hostWordSize) :
    MEMAddBlockHeapTracking base heap (base + t) size = .fatal := by
  have hcount : trackingBlockCount size = (size + mem.hostWordSize - 0x10) / 0x14 := by
    unfold trackingBlockCount
    rw [if_neg (by omega)]
  have hbig : 4294967296 ≤ (size + mem.hostWordSize - 0x10) / 0x14 := by
    unfold mem.hostWordSize
    omega
  have hnone := untranslate_trackingBlockPtr_outside base t 4294967296 hfit
    (by unfold trackingBlock; omega) (by unfold trackingBlock; omega)
  unfold MEMAddBlockHeapTracking
  cases hfirst : mem.untranslate base (trackingBlockPtr (base + t) 0) with
  | none => rfl
  | some first =>
    simp only []
    rw [linkTrackingBlocks_fatal base (base + t) first _ 0 heap 4294967295
      (by rw [hcount]; omega) hnone]

/-- C25, the code against the claim: on a heap as `MEMInitBlockHeap` leaves it, with
`numFreeBlocks` 0, guest memory mapped at `0x100000000` and a tracking region of `0x100`
bytes at guest address `0x30000000`, `MEMAddBlockHeapTracking` stores the block count
`(0x100 - 0x10) / 0x14 = 12`, yet `numFreeBlocks` becomes `0x30000010`, the address of the
first descriptor, not 12: line 96 adds `tracking->blocks`. -/
theorem MEMAddBlockHeapTracking_adds_address :
    ∃ heap1 track,
      MEMAddBlockHeapTracking 0x100000000 (singleFreeBlockHeap 0)
          (0x100000000 + 0x30000000) 0x100 = .returned (heap1, track) ∧
      track.blockCount = 12 ∧ (0x100 - 0x10) / 0x14 = 12 ∧
      (singleFreeBlockHeap 0).numFreeBlocks = 0 ∧
      heap1.numFreeBlocks = 0x30000010 ∧
      heap1.numFreeBlocks ≠ (singleFreeBlockHeap 0).numFreeBlocks + 12 := by
  obtain ⟨heap1, track, h1, h2, _, _, _, h6⟩ :=
    MEMAddBlockHeapTracking_effect 0x100000000 (singleFreeBlockHeap 0) 0x30000000 0x100
      (by decide) (by decide) (by decide)
  exact ⟨heap1, track, h1, h2, by decide, rfl, by rw [h6]; rfl, by rw [h6]; decide⟩

/-- Pointers that `untranslate` accepts keep their order as guest addresses. -/
theorem untranslate_lt {base start stop dataStart dataEnd : Nat}
    (hstart : mem.untranslate base start = some dataStart)
    (hstop : mem.untranslate base stop = some dataEnd) (horder : start < stop) :
    dataStart < dataEnd := by
  have hmax := Nat.mod_le (base + 0xFFFFFFFF) mem.hostWordSize
  have hval : ∀ {p a : Nat}, mem.untranslate base p = some a → p ≠ 0 →
      base < p ∧ p ≤ base + 0xFFFFFFFF ∧ a = p - base := by
    intro p a hp h0
    unfold mem.untranslate at hp
    by_cases h1 : p > base
    · by_cases h2 : p ≤ (base + 0xFFFFFFFF) % mem.hostWordSize
      · simp only [h0, h1, h2, if_false, not_true_eq_false, Option.some.injEq] at hp
        have hsmall : (p - base) % 4294967296 = p - base :=
          Nat.mod_eq_of_lt (by omega)
        rw [hsmall] at hp
        omega
      · simp [h0, h1, h2] at hp
    · simp [h0, h1] at hp
  have hstop0 : stop ≠ 0 := by omega
  obtain ⟨h1, h2, h3⟩ := hval hstop hstop0
  by_cases hstart0 : start = 0
  · have : dataStart = 0 := by
      rw [hstart0] at hstart
      simpa [mem.untranslate] using hstart.symm
    omega
  · obtain ⟨g1, g2, g3⟩ := hval hstart hstart0
    omega

/-- When `MEMAddBlockHeapTracking` fails a check on the region, so does
`MEMInitBlockHeap`. -/
theorem MEMInitBlockHeap_fatal_of_tracking (BlockHeapTag base self : Nat)
    (prior : MEMBlockHeap) (start stop tracking size flags : Nat)
    (hadd : ∀ heap, MEMAddBlockHeapTracking base heap tracking size = .fatal) :
    MEMInitBlockHeap BlockHeapTag base self prior start stop tracking size flags =
      .fatal := by
  unfold MEMInitBlockHeap
  split
  · rw [hadd]
  · rfl

/-- With `start < end` accepted by `untranslate`, the heap structure in guest memory and
a tracking region of at least `0x10` bytes that ends below the top of guest memory and
does not overlap the heap structure, `MEMInitBlockHeap` returns the heap pointer and
leaves the default block as the only block of a well-formed heap. -/
theorem MEMInitBlockHeap_effect (BlockHeapTag base s : Nat) (prior : MEMBlockHeap)
    (start stop t size flags dataStart dataEnd : Nat) (hfit : mem.MappedBase base)
    (horder : start < stop)
    (hstart : mem.untranslate base start = some dataStart)
    (hstop : mem.untranslate base stop = some dataEnd)
    (hself : s + 0x74 ≤ 0x100000000)
    (hsize : 0x10 ≤ size) (hin : t + size ≤ 0xFFFFFFFF)
    (hapart : s + 0x74 ≤ t ∨ t + size ≤ s) :
    ∃ heap0,
      MEMInitBlockHeap BlockHeapTag base (base + s) prior start stop (base + t) size flags =
        .returned (base + s, heap0) ∧
      heap0.firstBlock = some (s + 0x50) ∧ heap0.lastBlock = some (s + 0x50) ∧
      heap0.blocks (s + 0x50) =
        { start := dataStart, stop := dataEnd, isFree := true, prev := none, next := none } ∧
      WellFormed heap0 [s + 0x50] ∧ NoAdjacentFree heap0 [s + 0x50] ∧
      heap0.header.dataStart = dataStart ∧ heap0.header.dataEnd = dataEnd ∧
      dataStart < dataEnd ∧ heap0.header.tag = BlockHeapTag := by
  have hlt := untranslate_lt hstart hstop horder
  have hdef : mem.untranslate base ((base + s + 0x50) % mem.hostWordSize) =
      some (s + 0x50) := by
    have hptr : (base + s + 0x50) % mem.hostWordSize = mem.translate base (s + 0x50) := by
      unfold mem.translate
      rw [if_neg (by omega), Nat.add_assoc]
    rw [hptr]
    exact untranslate_translate_eq base _ hfit (by omega)
  have hbe : bePtr (s + 0x50) = some (s + 0x50) := by
    simp [bePtr]
  obtain ⟨heap0, track, hadd, hb, hh, hf, hl⟩ := MEMAddBlockHeapTracking_keeps base
    (initDefaultBlock BlockHeapTag (s + 0x50) prior dataStart dataEnd flags) t size
    (s + 0x50) hfit hsize hin (by omega)
  have hblock : heap0.blocks (s + 0x50) = ⟨dataStart, dataEnd, true, none, none⟩ := by
    rw [hb]
    simp [initDefaultBlock, writeBlock]
  have hfirst : heap0.firstBlock = some (s + 0x50) := by
    rw [hf]
    exact hbe
  have hlast : heap0.lastBlock = some (s + 0x50) := by
    rw [hl]
    exact hbe
  have hheader : heap0.header = ⟨BlockHeapTag, dataStart, dataEnd, flags⟩ := by
    rw [hh]
    rfl
  refine ⟨heap0, ?_, hfirst, hlast, hblock, ?_, ?_, by rw [hheader], by rw [hheader], hlt,
    by rw [hheader]⟩
  · unfold MEMInitBlockHeap
    rw [hstart, hstop, hdef]
    simp only [hadd]
  · exact
      { nodup := by simp
        first := by rw [hfirst]; rfl
        last := by rw [hlast]; rfl
        headPrev := by
          intro a ha
          have : a = s + 0x50 := by simpa using ha.symm
          rw [this, hblock]
        lastNext := by
          intro a ha
          have : a = s + 0x50 := by simpa using ha.symm
          rw [this, hblock]
        links := List.chain'_singleton _
        nonempty := by simp
        startsAt := by
          intro a ha
          have : a = s + 0x50 := by simpa using ha.symm
          rw [this, hblock, hheader]
        endsAt := by
          intro a ha
          have : a = s + 0x50 := by simpa using ha.symm
          rw [this, hblock, hheader]
        adjacent := List.chain'_singleton _
        extent := by
          intro a ha
          have : a = s + 0x50 := by simpa using ha
          rw [this, hblock]
          exact le_of_lt hlt }
  · exact List.chain'_singleton _

/-- When `untranslate` fails its check on `start`, on `end` or on `&heap->defaultBlock`,
so does `MEMInitBlockHeap`. -/
theorem MEMInitBlockHeap_fatal_of_pointer (BlockHeapTag base self : Nat)
    (prior : MEMBlockHeap) (start stop tracking size flags : Nat)
    (hnone : mem.untranslate base start = none ∨ mem.untranslate base stop = none ∨
      mem.untranslate base ((self + 0x50) % mem.hostWordSize) = none) :
    MEMInitBlockHeap BlockHeapTag base self prior start stop tracking size flags =
      .fatal := by
  unfold MEMInitBlockHeap
  split
  · rename_i h1 h2 h3
    rcases hnone with h | h | h
    · rw [h] at h1
      cases h1
    · rw [h] at h2
      cases h2
    · rw [h] at h3
      cases h3
  · rfl

/-- A tracking region that reaches the top of guest memory makes
`MEMAddBlockHeapTracking` fail the check of `untranslate` on the pointer behind its last
descriptor. -/
theorem MEMAddBlockHeapTracking_region_at_top (base : Nat) (heap : MEMBlockHeap)
    (t size : Nat) (hfit : mem.MappedBase base) (hsize : 0x24 ≤ size)
    (hsize32 : size < 4294967296)
    (hout : 0xFFFFFFFF < trackingBlock t ((size - 0x10) / 0x14))
    (hhost : base + 0x200000000 ≤ mem.hostWordSize) (ht : t ≤ 0xFFFFFFFF) :
    MEMAddBlockHeapTracking base heap (base + t) size = .fatal := by
  have hcount : trackingBlockCount size = (size - 0x10) / 0x14 := by
    unfold trackingBlockCount
    rw [if_pos (by omega)]
  have hnone := untranslate_trackingBlockPtr_outside base t ((size - 0x10) / 0x14) hfit hout
    (by unfold trackingBlock; omega)
  unfold MEMAddBlockHeapTracking
  cases hfirst : mem.untranslate base (trackingBlockPtr (base + t) 0) with
  | none => rfl
  | some first =>
    simp only []
    rw [hcount, linkTrackingBlocks_fatal base (base + t) first ((size - 0x10) / 0x14) 0 heap
      ((size - 0x10) / 0x14 - 1) (by omega)
      (by
        have : 0 + ((size - 0x10) / 0x14 - 1) + 1 = (size - 0x10) / 0x14 := by omega
        rw [this]
        exact hnone)]

/-- C24 as stated fails, at five inputs with `start < end` and guest memory mapped at
`0x100000000`.  (1) A tracking region of 8 bytes: the block count wraps around and the call
fails a check instead of returning.  (2) A tracking region of `0x100` bytes at guest
address `0xFFFFFF00`, which reaches the top of guest memory: the pointer behind its last
descriptor fails the check of `untranslate`.  (3) A heap structure at the host pointer
`0x1000`, outside guest memory.  (4) The host pointers `0x10 < 0x20` for `start` and
`end`, outside guest memory.  (5) A tracking region of `0x24` bytes on top of the default
tracker and the default block of the heap itself, in storage whose `firstFreeBlock` held
`0x8C`: the call returns, and `next` of the default block is `0x8C`, not null. -/
theorem MEMInitBlockHeap_needs_preconditions :
    ((0x100001000 : Nat) < 0x100002000 ∧
      MEMInitBlockHeap 7 0x100000000 (0x100000000 + 0x20000000)
        (threeBlockHeap false true false) 0x100001000 0x100002000
        (0x100000000 + 0x30000000) 8 0 = .fatal) ∧
    MEMInitBlockHeap 7 0x100000000 (0x100000000 + 0x20000000)
      (threeBlockHeap false true false) 0x100001000 0x100002000
      (0x100000000 + 0xFFFFFF00) 0x100 0 = .fatal ∧
    MEMInitBlockHeap 7 0x100000000 0x1000 (threeBlockHeap false true false) 0x100001000
      0x100002000 (0x100000000 + 0x30000000) 0x100 0 = .fatal ∧
    ((0x10 : Nat) < 0x20 ∧
      MEMInitBlockHeap 7 0x100000000 (0x100000000 + 0x20000000)
        (threeBlockHeap false true false) 0x10 0x20 (0x100000000 + 0x30000000) 0x100 0 =
        .fatal) ∧
    ∃ heap0,
      MEMInitBlockHeap 7 0x100000000 (0x100000000 + 0x20000000)
        { threeBlockHeap false true false with firstFreeBlock := some 0x8C }
        0x100001000 0x100002000 (0x100000000 + 0x20000040) 0x24 0 =
        .returned (0x100000000 + 0x20000000, heap0) ∧
      heap0.firstBlock = some 0x20000050 ∧
      (heap0.blocks 0x20000050).next = some 0x8C := by
  refine ⟨⟨by decide, ?_⟩, ?_, ?_, ⟨by decide, ?_⟩, ?_⟩
  · exact MEMInitBlockHeap_fatal_of_tracking 7 0x100000000 _ _ _ _ _ 8 0
      (fun heap => MEMAddBlockHeapTracking_small_region 0x100000000 heap 0x30000000 8
        (by decide) (by decide) (by decide) (by decide))
  · exact MEMInitBlockHeap_fatal_of_tracking 7 0x100000000 _ _ _ _ _ 0x100 0
      (fun heap => MEMAddBlockHeapTracking_region_at_top 0x100000000 heap 0xFFFFFF00 0x100
        (by decide) (by decide) (by decide) (by simp [trackingBlock]) (by decide)
        (by decide))
  · exact MEMInitBlockHeap_fatal_of_pointer 7 0x100000000 0x1000 _ _ _ _ _ _
      (Or.inr (Or.inr (by simp [mem.untranslate, mem.hostWordSize])))
  · exact MEMInitBlockHeap_fatal_of_pointer 7 0x100000000 _ _ 0x10 0x20 _ _ _
      (Or.inl (by simp [mem.untranslate]))
  · have h1 : mem.untranslate 0x100000000 0x100001000 = some 0x1000 := by
      simp [mem.untranslate, mem.hostWordSize]
    have h2 : mem.untranslate 0x100000000 0x100002000 = some 0x2000 := by
      simp [mem.untranslate, mem.hostWordSize]
    have h3 : mem.untranslate 0x100000000
        ((0x100000000 + 0x20000000 + 0x50) % mem.hostWordSize) = some 0x20000050 := by
      simp [mem.untranslate, mem.hostWordSize]
    have h4 : mem.untranslate 0x100000000
        (trackingBlockPtr (0x100000000 + 0x20000040) 0) = some 0x20000050 := by
      simp [mem.untranslate, mem.hostWordSize, trackingBlockPtr]
    have h5 : mem.untranslate 0x100000000
        (trackingBlockPtr (0x100000000 + 0x20000040) (0 + 1)) = some 0x20000064 := by
      simp [mem.untranslate, mem.hostWordSize, trackingBlockPtr]
    have hc : trackingBlockCount 0x24 = 1 := by
      simp [trackingBlockCount]
    refine ⟨?w, ?h1, ?h2, ?h3⟩
    case h1 =>
      unfold MEMInitBlockHeap
      rw [h1, h2, h3]
      simp only []
      unfold MEMAddBlockHeapTracking
      rw [h4]
      simp only []
      rw [hc, linkTrackingBlocks, h5]
      simp only [linkTrackingBlocks]
      exact rfl
    case h2 =>
      simp [insertTrackingBlocks, writeBlock, initDefaultBlock, bePtr]
    case h3 =>
      simp [insertTrackingBlocks, writeBlock, initDefaultBlock, threeBlockHeap]

/-- C24, amended: let guest memory be mapped at `base`, let `start < end` be host pointers
that `untranslate` accepts, let the heap structure (`0x74` bytes at guest address `s`) lie
in guest memory, and let the tracking region (`size ≥ 0x10` bytes at guest address `t`)
end below the top of guest memory and not overlap the heap structure.  Then
`MEMInitBlockHeap` returns the heap pointer it was given and leaves a block list of exactly
one block, the default block embedded at offset `0x50` of the heap: its `start` is
`untranslate(start)`, its `end` is `untranslate(end)`, it is free, its `prev` and `next` are
null, and `firstBlock` and `lastBlock` both point to it.  The heap is well formed over
`[dataStart, dataEnd)`. -/
theorem MEMInitBlockHeap_single_block (BlockHeapTag base s : Nat) (prior : MEMBlockHeap)
    (start stop t size flags dataStart dataEnd : Nat) (hfit : mem.MappedBase base)
    (horder : start < stop)
    (hstart : mem.untranslate base start = some dataStart)
    (hstop : mem.untranslate base stop = some dataEnd)
    (hself : s + 0x74 ≤ 0x100000000)
    (hsize : 0x10 ≤ size) (hin : t + size ≤ 0xFFFFFFFF)
    (hapart : s + 0x74 ≤ t ∨ t + size ≤ s) :
    ∃ heap0,
      MEMInitBlockHeap BlockHeapTag base (base + s) prior start stop (base + t) size flags =
        .returned (base + s, heap0) ∧
      heap0.firstBlock = some (s + 0x50) ∧ heap0.lastBlock = some (s + 0x50) ∧
      heap0.blocks (s + 0x50) =
        { start := dataStart, stop := dataEnd, isFree := true, prev := none, next := none } ∧
      WellFormed heap0 [s + 0x50] ∧ NoAdjacentFree heap0 [s + 0x50] ∧
      heap0.header.dataStart = dataStart ∧ heap0.header.dataEnd = dataEnd ∧
      dataStart < dataEnd := by
  obtain ⟨heap0, h1, h2, h3, h4, h5, h6, h7, h8, h9, _⟩ :=
    MEMInitBlockHeap_effect BlockHeapTag base s prior start stop t size flags dataStart
      dataEnd hfit horder hstart hstop hself hsize hin hapart
  exact ⟨heap0, h1, h2, h3, h4, h5, h6, h7, h8, h9⟩

/-- C24, amended, for guest memory mapped at `0x100000000`, a heap at guest address
`0x20000000` whose storage held three blocks before, the data range `[0x1000, 0x2000)` and
a tracking region of `0x100` bytes at guest address `0x30000000`. -/
theorem MEMInitBlockHeap_single_block_witness :
    ∃ heap0,
      MEMInitBlockHeap 7 0x100000000 (0x100000000 + 0x20000000)
          (threeBlockHeap false true false) 0x100001000 0x100002000
          (0x100000000 + 0x30000000) 0x100 0 =
        .returned (0x100000000 + 0x20000000, heap0) ∧
      heap0.firstBlock = some 0x20000050 ∧ heap0.lastBlock = some 0x20000050 ∧
      heap0.blocks 0x20000050 =
        { start := 0x1000, stop := 0x2000, isFree := true, prev := none, next := none } ∧
      WellFormed heap0 [0x20000050] := by
  obtain ⟨heap0, h1, h2, h3, h4, h5, _⟩ :=
    MEMInitBlockHeap_single_block 7 0x100000000 0x20000000 (threeBlockHeap false true false)
      0x100001000 0x100002000 0x30000000 0x100 0 0x1000 0x2000 (by decide) (by decide)
      (by simp [mem.untranslate, mem.hostWordSize])
      (by simp [mem.untranslate, mem.hostWordSize]) (by decide) (by decide) (by decide)
      (Or.inl (by decide))
  exact ⟨heap0, h1, h2, h3, h4, h5⟩

end coreinit

/-! ## Address translation theorems -/

namespace mem

/-- C18: `translate` maps guest address 0 to the null host pointer and every other 32-bit
guest address `a` to `base + a`, which is not null; `untranslate` maps the null host
pointer to guest address 0 and fails no check on it. -/
theorem translate_null_or_offset (base : Nat) (hfit : MappedBase base) :
    translate base 0 = 0 ∧
    (∀ a, a ≠ 0 → a < 4294967296 → translate base a = base + a ∧ translate base a ≠ 0) ∧
    untranslate base 0 = some 0 := by
  unfold MappedBase hostWordSize at hfit
  refine ⟨by simp [translate], ?_, by simp [untranslate]⟩
  intro a ha hlt
  have hmod : (base + a) % hostWordSize = base + a := by
    apply Nat.mod_eq_of_lt
    unfold hostWordSize
    omega
  simp only [translate, ha, if_false, hmod]
  exact ⟨trivial, by omega⟩

/-- C18 at base `0x100000000`: guest address `0x1000` becomes host pointer
`0x100001000`. -/
theorem translate_null_or_offset_witness :
    translate 0x100000000 0x1000 = 0x100001000 ∧ translate 0x100000000 0x1000 ≠ 0 := by
  have h := (translate_null_or_offset 0x100000000 (by decide)).2.1 0x1000 (by decide)
    (by decide)
  simpa using h

/-- C19: for a fixed base, `untranslate (translate a) = a` for every 32-bit guest address
`a`, 0 included, and `translate (untranslate p) = p` for every host pointer `p` that is
null or satisfies `base < p ≤ base + 0xFFFFFFFF`. -/
theorem untranslate_translate_roundtrip (base : Nat) (hfit : MappedBase base) :
    (∀ a, a < 4294967296 → untranslate base (translate base a) = some a) ∧
    (∀ p, p = 0 ∨ (base < p ∧ p ≤ base + 0xFFFFFFFF) →
      ∃ a, untranslate base p = some a ∧ translate base a = p) := by
  unfold MappedBase hostWordSize at hfit
  have hmax : (base + 0xFFFFFFFF) % hostWordSize = base + 0xFFFFFFFF := by
    apply Nat.mod_eq_of_lt
    unfold hostWordSize
    omega
  refine ⟨?_, ?_⟩
  · intro a hlt
    by_cases ha : a = 0
    · simp [translate, untranslate, ha]
    · have hmod : (base + a) % hostWordSize = base + a := by
        apply Nat.mod_eq_of_lt
        unfold hostWordSize
        omega
      have h1 : base + a ≠ 0 := by omega
      have h2 : base + a > base := by omega
      have h3 : base + a ≤ base + 0xFFFFFFFF := by omega
      have h4 : (base + a - base) % 4294967296 = a := by
        rw [Nat.add_sub_cancel_left]
        exact Nat.mod_eq_of_lt hlt
      simp only [translate, ha, if_false, hmod, untranslate, h1, hmax, h2, h3, h4,
        not_true_eq_false]
  · intro p hp
    rcases hp with h0 | ⟨hlo, hhi⟩
    · exact ⟨0, by simp [untranslate, h0], by simp [translate, h0]⟩
    · refine ⟨p - base, ?_, ?_⟩
      · have h1 : p ≠ 0 := by omega
        have h4 : (p - base) % 4294967296 = p - base := by
          apply Nat.mod_eq_of_lt
          omega
        simp only [untranslate, h1, if_false, hmax, hlo, hhi, h4, gt_iff_lt,
          not_true_eq_false]
      · have h5 : p - base ≠ 0 := by omega
        have h6 : (base + (p - base)) % hostWordSize = p := by
          rw [Nat.add_sub_cancel' (Nat.le_of_lt hlo)]
          apply Nat.mod_eq_of_lt
          unfold hostWordSize
          omega
        simp only [translate, h5, if_false, h6]

/-- C19 at base `0x100000000` and guest address `0xF4000000`. -/
theorem untranslate_translate_roundtrip_witness :
    untranslate 0x100000000 (translate 0x100000000 0xF4000000) = some 0xF4000000 :=
  (untranslate_translate_roundtrip 0x100000000 (by decide)).1 0xF4000000 (by decide)

/-- C20: `untranslate` fails a check exactly for the non-null host pointers outside the
mapped region, `p ≤ base` or `base + 0xFFFFFFFF < p`; for a pointer with
`base < p ≤ base + 0xFFFFFFFF` it returns `p - base`, which fits in 32 bits, and for the
null pointer it returns 0. -/
theorem untranslate_fails_iff_outside (base p : Nat) (hfit : MappedBase base) :
    (untranslate base p = none ↔ p ≠ 0 ∧ (p ≤ base ∨ base + 0xFFFFFFFF < p)) ∧
    (base < p → p ≤ base + 0xFFFFFFFF →
      untranslate base p = some (p - base) ∧ p - base < 4294967296) ∧
    (p = 0 → untranslate base p = some 0) := by
  unfold MappedBase hostWordSize at hfit
  have hmax : (base + 0xFFFFFFFF) % hostWordSize = base + 0xFFFFFFFF := by
    apply Nat.mod_eq_of_lt
    unfold hostWordSize
    omega
  refine ⟨?_, ?_, ?_⟩
  · unfold untranslate
    rw [hmax]
    by_cases h0 : p = 0
    · simp [h0]
    · by_cases h1 : p > base
      · by_cases h2 : p ≤ base + 0xFFFFFFFF
        · simp only [h0, h1, h2, if_false, not_true_eq_false]
          constructor
          · intro h
            cases h
          · rintro ⟨_, h | h⟩ <;> omega
        · simp only [h0, h1, h2, if_false, if_true, not_true_eq_false, not_false_eq_true,
            true_iff]
          exact ⟨h0, Or.inr (by omega)⟩
      · simp only [h0, h1, if_false, if_true, not_false_eq_true, true_iff]
        exact ⟨h0, Or.inl (by omega)⟩
  · intro hlo hhi
    have h1 : p ≠ 0 := by omega
    have h4 : (p - base) % 4294967296 = p - base := by
      apply Nat.mod_eq_of_lt
      omega
    refine ⟨?_, by omega⟩
    simp only [untranslate, h1, if_false, hmax, hlo, hhi, h4, gt_iff_lt, not_true_eq_false]
  · intro h0
    simp [untranslate, h0]

/-- C20 at base `0x100000000`: the pointer equal to the base fails the check and the
pointer `0x100001000` is guest address `0x1000`. -/
theorem untranslate_fails_iff_outside_witness :
    untranslate 0x100000000 0x100000000 = none ∧
    untranslate 0x100000000 0x100001000 = some 0x1000 := by
  refine ⟨?_, ?_⟩
  · exact (untranslate_fails_iff_outside 0x100000000 0x100000000 (by decide)).1.mpr
      ⟨by decide, Or.inl (le_refl _)⟩
  · have h := ((untranslate_fails_iff_outside 0x100000000 0x100001000 (by decide)).2.1
      (by decide) (by decide)).1
    simpa using h

end mem

/-! ## Initialisation flag theorems -/

namespace nn.boss

/-- The flag after a sequence of calls is decided by the last `Initialize` or `Finalize`
among them, and is the flag before when there is none. -/
theorem runCalls_flag (Success : Nat) :
    ∀ (calls : List Call) (flag : Bool),
      (runCalls Success calls flag).2 =
        match lastSetter calls with
        | some .Initialize => true
        | some .Finalize => false
        | _ => flag := by
  intro calls
  induction calls using List.reverseRecOn with
  | nil =>
    intro flag
    rfl
  | append_singleton rest call ih =>
    intro flag
    have hrun : ∀ (xs : List Call) (f : Bool),
        (runCalls Success (xs ++ [call]) f).2 =
          (call.run Success (runCalls Success xs f).2).2 := by
      intro xs
      induction xs with
      | nil =>
        intro f
        rfl
      | cons x xs ihx =>
        intro f
        simp only [List.cons_append, runCalls]
        exact ihx _
    rw [hrun, ih]
    cases call <;>
      simp [lastSetter, Call.run, Initialize, Finalize, IsInitialized, List.find?]

/-- C27: the flag is false before any call; after any sequence of calls `IsInitialized`
returns true exactly when the last `Initialize` or `Finalize` of the sequence is an
`Initialize`, and false exactly when it is a `Finalize` or there is none, so `Initialize`,
`Initialize`, `Finalize` leaves it false: nothing is counted.  `Initialize` and `Finalize`
return `Success` in every state and `IsInitialized` leaves the flag as it is. -/
theorem gInitialised_two_state (Success : Nat) (calls : List Call) :
    IsInitialized gInitialised = (false, false) ∧
    ((IsInitialized (runCalls Success calls gInitialised).2).1 = true ↔
      lastSetter calls = some .Initialize) ∧
    ((IsInitialized (runCalls Success calls gInitialised).2).1 = false ↔
      lastSetter calls = some .Finalize ∨ lastSetter calls = none) ∧
    (runCalls Success [.Initialize, .Initialize, .Finalize] gInitialised).2 = false ∧
    (∀ flag, Initialize Success flag = (Success, true)) ∧
    (∀ flag, Finalize Success flag = (Success, false)) ∧
    (∀ flag, IsInitialized flag = (flag, flag)) := by
  have hflag := runCalls_flag Success calls gInitialised
  have hne : lastSetter calls ≠ some .IsInitialized := by
    intro h
    have := List.find?_some h
    simp at this
  refine ⟨rfl, ?_, ?_, rfl, fun _ => rfl, fun _ => rfl, fun _ => rfl⟩
  · show (runCalls Success calls gInitialised).2 = true ↔ _
    rw [hflag]
    rcases h : lastSetter calls with _ | c
    · simp [gInitialised]
    · cases c
      · simp
      · simp
      · exact absurd h hne
  · show (runCalls Success calls gInitialised).2 = false ↔ _
    rw [hflag]
    rcases h : lastSetter calls with _ | c
    · simp [gInitialised]
    · cases c
      · simp
      · simp
      · exact absurd h hne

end nn.boss
